import Mathlib

/-!
Verification of the wukfit/web-crawler repository.

Strings are modelled as lists of characters.  The URL functions mirror
the CPython 3.11.6 `urllib.parse` module, which is what the source code
of the repository calls (`normalise_url`, `extract_urls`, `urljoin`,
`is_same_domain`).  The parsing functions themselves are total over the
URLs that `urlparse` accepts; the inputs `urlsplit` rejects with
`ValueError` (a mismatched-bracket authority, an invalid bracketed
host, a non-ASCII netloc failing the NFKC check) are modelled
separately by the predicate `urlsplitRaises` and threaded through
`extract_urls`, which is where the repository meets such input; the
validity semantics the stdlib delegates to the `ipaddress` and
`unicodedata` modules enter as oracle parameters.

The crawl engine (`CrawlerService.crawl`) is embedded as a small-step
interleaving system over the await boundaries of its worker coroutines;
see the `Engine` section below.
-/

set_option maxRecDepth 40000

namespace WebCrawler

abbrev Str := List Char

/-- The three byte values removed from URLs by `urlsplit`
(`_UNSAFE_URL_BYTES_TO_REMOVE`). -/
def unsafeChars : List Char := ['\t', '\r', '\n']

def removeUnsafe (s : Str) : Str := s.filter (fun c => !unsafeChars.contains c)

/-- Leading C0-control-or-space stripping done by `urlsplit`
(`_WHATWG_C0_CONTROL_OR_SPACE`, the characters U+0000 through U+0020). -/
def ctlOrSpace (c : Char) : Bool := decide (c.toNat ≤ 0x20)

def lstripControl (s : Str) : Str := s.dropWhile ctlOrSpace

def stripControl (s : Str) : Str :=
  ((s.dropWhile ctlOrSpace).reverse.dropWhile ctlOrSpace).reverse

/-- Characters valid in scheme names (`scheme_chars`). -/
def schemeChar (c : Char) : Bool := c.isAlpha || c.isDigit || c == '+' || c == '-' || c == '.'

/-- Split a list at the first occurrence of a character. -/
def splitOnFirst (c : Char) : Str → Option (Str × Str)
  | [] => none
  | x :: xs =>
    if x = c then some ([], xs)
    else (splitOnFirst c xs).map (fun p => (x :: p.1, p.2))

/-- Split a list at the last occurrence of a character. -/
def splitOnLast (c : Char) (s : Str) : Option (Str × Str) :=
  (splitOnFirst c s.reverse).map (fun p => (p.2.reverse, p.1.reverse))

/-- Split at the first occurrence of `c`, the second component defaulting to
empty when `c` does not occur (the `url.split(sep, 1)` idiom guarded by an
`in` test). -/
def splitTail (c : Char) (s : Str) : Str × Str :=
  match splitOnFirst c s with
  | none => (s, [])
  | some p => p

/-- Characters ending the netloc in `_splitnetloc`. -/
def netlocDelim (c : Char) : Bool := c == '/' || c == '?' || c == '#'

/-- `_splitnetloc(url, 2)` applied to `url.drop 2`. -/
def splitNetloc (rest : Str) : Str × Str :=
  (rest.takeWhile (fun c => !netlocDelim c), rest.dropWhile (fun c => !netlocDelim c))

/-- Scheme detection of `urlsplit`: a scheme is split off when the text
before the first colon is nonempty, starts with an ASCII letter and
consists of scheme characters only; the scheme is lowercased. -/
def splitScheme (url : Str) : Str × Str :=
  match splitOnFirst ':' url with
  | none => ([], url)
  | some (pre, post) =>
    if pre ≠ [] ∧ (pre.headD ' ').isAlpha ∧ pre.all schemeChar then
      (pre.map Char.toLower, post)
    else ([], url)

/-- The scheme lists of `urllib.parse` (CPython 3.11.6). -/
def usesParams : List Str :=
  ["", "ftp", "hdl", "prospero", "http", "imap", "https", "shttp", "rtsp",
   "rtsps", "rtspu", "sip", "sips", "mms", "sftp", "tel"].map String.data

def usesNetloc : List Str :=
  ["", "ftp", "http", "gopher", "nntp", "telnet", "imap", "wais", "file",
   "mms", "https", "shttp", "snews", "prospero", "rtsp", "rtsps", "rtspu",
   "rsync", "svn", "svn+ssh", "sftp", "nfs", "git", "git+ssh", "ws",
   "wss"].map String.data

def usesRelative : List Str :=
  ["", "ftp", "http", "gopher", "nntp", "imap", "wais", "file", "https",
   "shttp", "mms", "prospero", "rtsp", "rtsps", "rtspu", "sftp", "svn",
   "svn+ssh", "ws", "wss"].map String.data

structure SplitResult where
  scheme : Str
  netloc : Str
  path : Str
  query : Str
  fragment : Str
deriving Repr, DecidableEq

structure ParseResult where
  scheme : Str
  netloc : Str
  path : Str
  params : Str
  query : Str
  fragment : Str
deriving Repr, DecidableEq

/-- `urlsplit(url, scheme=dflt)` with `allow_fragments=True`. -/
def urlsplitWith (url0 dflt0 : Str) : SplitResult :=
  let url1 := removeUnsafe (lstripControl url0)
  let dflt := removeUnsafe (stripControl dflt0)
  let sp := splitScheme url1
  let scheme := if sp.1 = [] then dflt else sp.1
  let url2 := sp.2
  let np := if url2.take 2 = ['/', '/'] then splitNetloc (url2.drop 2) else ([], url2)
  let fp := splitTail '#' np.2
  let qp := splitTail '?' fp.1
  ⟨scheme, np.1, qp.1, qp.2, fp.2⟩

/-- `_splitparams`. -/
def splitParams (url : Str) : Str × Str :=
  if url.contains '/' then
    match splitOnLast '/' url with
    | some (bef, aft) =>
      match splitOnFirst ';' aft with
      | none => (url, [])
      | some (a1, a2) => (bef ++ '/' :: a1, a2)
    | none => (url, [])
  else
    match splitOnFirst ';' url with
    | none => (url, [])
    | some p => p

/-- `urlparse(url, scheme=dflt)`. -/
def urlparseWith (url dflt : Str) : ParseResult :=
  let s := urlsplitWith url dflt
  if usesParams.contains s.scheme ∧ s.path.contains ';' then
    let p := splitParams s.path
    ⟨s.scheme, s.netloc, p.1, p.2, s.query, s.fragment⟩
  else
    ⟨s.scheme, s.netloc, s.path, [], s.query, s.fragment⟩

def urlparse (url : Str) : ParseResult := urlparseWith url []

/-- `urlunsplit`. -/
def urlunsplit (scheme netloc path query fragment : Str) : Str :=
  let url := path
  let url :=
    if netloc ≠ [] ∨ (scheme ≠ [] ∧ usesNetloc.contains scheme ∧ url.take 2 ≠ ['/', '/']) then
      let url := if url ≠ [] ∧ url.take 1 ≠ ['/'] then '/' :: url else url
      '/' :: '/' :: (netloc ++ url)
    else url
  let url := if scheme ≠ [] then scheme ++ ':' :: url else url
  let url := if query ≠ [] then url ++ '?' :: query else url
  if fragment ≠ [] then url ++ '#' :: fragment else url

/-- `urlunparse`, which is also `ParseResult.geturl`. -/
def urlunparse (p : ParseResult) : Str :=
  let url := if p.params ≠ [] then p.path ++ ';' :: p.params else p.path
  urlunsplit p.scheme p.netloc url p.query p.fragment

/-- `str.split(c)` of the Python stdlib: splitting the empty string gives
a singleton list holding the empty string. -/
def splitOnChar (c : Char) : Str → List Str
  | [] => [[]]
  | x :: xs =>
    let r := splitOnChar c xs
    if x = c then [] :: r
    else
      match r with
      | [] => [[x]]
      | h :: t => (x :: h) :: t

/-- `c.join(parts)`. -/
def joinChar (c : Char) : List Str → Str
  | [] => []
  | [s] => s
  | s :: rest => s ++ c :: joinChar c rest

/-- The `segments[1:-1] = filter(None, segments[1:-1])` step of `urljoin`:
drop empty segments, keeping the first and the last untouched. -/
def midFilter : List Str → List Str
  | [] => []
  | [x] => [x]
  | x :: rest => x :: ((rest.dropLast.filter (· ≠ [])) ++ [rest.getLastD []])

/-- `urljoin(base, url)` of CPython 3.11.6. -/
def urljoin (base url : Str) : Str :=
  if base = [] then url
  else if url = [] then base
  else
    let b := urlparseWith base []
    let r := urlparseWith url b.scheme
    if r.scheme ≠ b.scheme ∨ ¬ usesRelative.contains r.scheme then url
    else if usesNetloc.contains r.scheme ∧ r.netloc ≠ [] then
      urlunparse ⟨r.scheme, r.netloc, r.path, r.params, r.query, r.fragment⟩
    else
      let netloc := if usesNetloc.contains r.scheme then b.netloc else r.netloc
      if r.path = [] ∧ r.params = [] then
        let query := if r.query = [] then b.query else r.query
        urlunparse ⟨r.scheme, netloc, b.path, b.params, query, r.fragment⟩
      else
        let baseParts := splitOnChar '/' b.path
        let baseParts :=
          if baseParts.getLast? ≠ some [] then baseParts.dropLast else baseParts
        let segments :=
          if r.path.take 1 = ['/'] then splitOnChar '/' r.path
          else midFilter (baseParts ++ splitOnChar '/' r.path)
        let resolved := segments.foldl
          (fun acc seg =>
            if seg = "..".data then acc.dropLast
            else if seg = ".".data then acc
            else acc ++ [seg])
          ([] : List Str)
        let resolved :=
          if segments.getLast? = some ".".data ∨ segments.getLast? = some "..".data then
            resolved ++ [[]]
          else resolved
        let joined := joinChar '/' resolved
        let path := if joined = [] then ['/'] else joined
        urlunparse ⟨r.scheme, netloc, path, r.params, r.query, r.fragment⟩

/-- Strip all trailing slashes, the `path.rstrip(chr 47)` of `normalise_url`. -/
def rstripSlash (s : Str) : Str := (s.reverse.dropWhile (· == '/')).reverse

/-- `parser.normalise_url`: parse, strip the fragment and the trailing
slashes of the path, reassemble. -/
def normalise_url (u : Str) : Str :=
  let p := urlparse u
  urlunparse { p with path := rstripSlash p.path, fragment := [] }

/-! ### Support lemmas about the character-list operations -/

theorem char_interval (P : Char → Prop) [DecidablePred P] (hi : Nat)
    (hall : ∀ n ∈ List.range (hi + 1), P (Char.ofNat n))
    (c : Char) (h2 : c.toNat ≤ hi) : P c := by
  have := hall c.toNat (List.mem_range.mpr (Nat.lt_succ_of_le h2))
  simpa [Char.ofNat_toNat] using this

theorem schemeChar_le (c : Char) (h : schemeChar c = true) : c.toNat ≤ 122 := by
  simp only [schemeChar, Char.isAlpha, Char.isUpper, Char.isLower, Char.isDigit,
    Bool.or_eq_true, Bool.and_eq_true, beq_iff_eq, decide_eq_true_eq] at h
  rcases h with ((((h | h) | h) | rfl) | rfl) | rfl
  · exact le_trans (UInt32.le_def.mp h.2) (by norm_num)
  · exact UInt32.le_def.mp h.2
  · exact le_trans (UInt32.le_def.mp h.2) (by norm_num)
  · decide
  · decide
  · decide

theorem isAlpha_le (c : Char) (h : c.isAlpha = true) : c.toNat ≤ 122 := by
  refine schemeChar_le c ?_
  simp [schemeChar, h]

theorem toLower_idem_schemeChar (c : Char) (h : schemeChar c = true) :
    Char.toLower (Char.toLower c) = Char.toLower c := by
  refine char_interval
    (fun c => schemeChar c = true → Char.toLower (Char.toLower c) = Char.toLower c)
    122 ?_ c (schemeChar_le c h) h
  decide

theorem schemeChar_toLower (c : Char) (h : schemeChar c = true) :
    schemeChar (Char.toLower c) = true := by
  refine char_interval
    (fun c => schemeChar c = true → schemeChar (Char.toLower c) = true)
    122 ?_ c (schemeChar_le c h) h
  decide

theorem isAlpha_toLower (c : Char) (h : c.isAlpha = true) :
    (Char.toLower c).isAlpha = true := by
  refine char_interval (fun c => c.isAlpha = true → (Char.toLower c).isAlpha = true)
    122 ?_ c (isAlpha_le c h) h
  decide

theorem isAlpha_gt_space (c : Char) (h : c.isAlpha = true) :
    ctlOrSpace c = false := by
  refine char_interval (fun c => c.isAlpha = true → ctlOrSpace c = false)
    122 ?_ c (isAlpha_le c h) h
  decide

theorem schemeChar_ne (c : Char) (h : schemeChar c = true) :
    c ≠ ':' ∧ c ≠ '/' ∧ c ≠ '?' ∧ c ≠ '#' ∧ c ≠ ';' := by
  refine ⟨?_, ?_, ?_, ?_, ?_⟩ <;> (rintro rfl; simp [schemeChar] at h)

theorem splitOnFirst_eq_none {c : Char} {l : Str} (h : c ∉ l) :
    splitOnFirst c l = none := by
  induction l with
  | nil => rfl
  | cons x xs ih =>
    have hx : ¬ x = c := fun hh => h (hh ▸ List.mem_cons_self x xs)
    simp only [splitOnFirst, if_neg hx, ih (fun hm => h (List.mem_cons_of_mem _ hm)),
      Option.map_none']

theorem splitOnFirst_cons_append {c : Char} {a : Str} (b : Str) (h : c ∉ a) :
    splitOnFirst c (a ++ c :: b) = some (a, b) := by
  induction a with
  | nil => simp [splitOnFirst]
  | cons x xs ih =>
    have hx : ¬ x = c := fun hh => h (hh ▸ List.mem_cons_self x xs)
    have ihx := ih (fun hm => h (List.mem_cons_of_mem _ hm))
    simp only [List.cons_append, splitOnFirst, if_neg hx, List.append_eq, ihx,
      Option.map_some']

theorem splitOnFirst_eq_some {c : Char} {l a b : Str}
    (h : splitOnFirst c l = some (a, b)) : l = a ++ c :: b ∧ c ∉ a := by
  induction l generalizing a b with
  | nil => simp [splitOnFirst] at h
  | cons x xs ih =>
    by_cases hx : x = c
    · subst hx
      simp only [splitOnFirst, if_pos rfl, Option.some_inj, Prod.mk.injEq] at h
      obtain ⟨rfl, rfl⟩ := h
      simp
    · simp only [splitOnFirst, if_neg hx] at h
      match ha : splitOnFirst c xs with
      | none => rw [ha] at h; simp at h
      | some (a2, b2) =>
        rw [ha] at h
        simp only [Option.map_some', Option.some_inj, Prod.mk.injEq] at h
        obtain ⟨h1, h2⟩ := h
        subst h1; subst h2
        obtain ⟨he, hm⟩ := ih ha
        refine ⟨by simp [he], ?_⟩
        intro hmem
        rcases List.mem_cons.mp hmem with h3 | h3
        · exact hx h3.symm
        · exact hm h3

theorem splitTail_not_mem {c : Char} {s : Str} (h : c ∉ s) :
    splitTail c s = (s, []) := by
  simp [splitTail, splitOnFirst_eq_none h]

theorem splitTail_cons_append {c : Char} {a : Str} (b : Str) (h : c ∉ a) :
    splitTail c (a ++ c :: b) = (a, b) := by
  simp [splitTail, splitOnFirst_cons_append b h]

theorem splitOnFirst_isSome_of_mem {c : Char} {s : Str} (h : c ∈ s) :
    (splitOnFirst c s).isSome := by
  induction s with
  | nil => simp at h
  | cons x xs ih =>
    by_cases hx : x = c
    · simp [splitOnFirst, hx]
    · have : c ∈ xs := by
        rcases List.mem_cons.mp h with h1 | h1
        · exact absurd h1.symm hx
        · exact h1
      simp only [splitOnFirst, if_neg hx]
      have := ih this
      match hs : splitOnFirst c xs with
      | some p => simp
      | none => rw [hs] at this; simp at this

theorem splitTail_fst_spec (c : Char) (s : Str) :
    (c ∉ (splitTail c s).1) ∧
      (s = (splitTail c s).1 ++ c :: (splitTail c s).2 ∨
        ((splitTail c s).1 = s ∧ (splitTail c s).2 = [])) := by
  unfold splitTail
  match h : splitOnFirst c s with
  | none =>
    refine ⟨?_, Or.inr ⟨rfl, rfl⟩⟩
    intro hm
    have := splitOnFirst_isSome_of_mem hm
    rw [h] at this
    simp at this
  | some p =>
    obtain ⟨he, hm⟩ := splitOnFirst_eq_some h
    exact ⟨hm, Or.inl he⟩

theorem takeWhile_append_not {p : Char → Bool} {a b : Str}
    (ha : ∀ x ∈ a, p x = true) (hb : ∀ y, b.head? = some y → p y = false) :
    (a ++ b).takeWhile p = a ∧ (a ++ b).dropWhile p = b := by
  induction a with
  | nil =>
    cases b with
    | nil => simp
    | cons y t =>
      have := hb y rfl
      simp [List.takeWhile, List.dropWhile, this]
  | cons x xs ih =>
    have hx := ha x (List.mem_cons_self _ _)
    have hrec := ih (fun z hz => ha z (List.mem_cons_of_mem _ hz))
    simp [List.takeWhile, List.dropWhile, hx, hrec.1, hrec.2]

theorem dropWhile_dropWhile (p : Char → Bool) (l : Str) :
    (l.dropWhile p).dropWhile p = l.dropWhile p := by
  induction l with
  | nil => rfl
  | cons x xs ih =>
    by_cases hx : p x = true
    · simp [List.dropWhile, hx, ih]
    · have hx2 : p x = false := by simpa using hx
      simp [List.dropWhile, hx2]

theorem dropWhile_cons_eq_self {p : Char → Bool} {y : Char} {t : Str}
    (h : (y :: t).dropWhile p = y :: t) : p y = false := by
  by_cases hy : p y = true
  · exfalso
    have h2 : (y :: t).dropWhile p = t.dropWhile p := by simp [List.dropWhile, hy]
    rw [h2] at h
    have := List.Sublist.length_le (List.dropWhile_sublist (l := t) (p := p))
    rw [h] at this
    simp at this
  · simpa using hy

theorem dropWhile_append_of_eq_self {p : Char → Bool} {l : Str} (m : Str)
    (h : l.dropWhile p = l) (hl : l ≠ []) : (l ++ m).dropWhile p = l ++ m := by
  cases l with
  | nil => exact absurd rfl hl
  | cons y t =>
    have hy := dropWhile_cons_eq_self h
    simp [List.dropWhile, hy]

theorem rstripSlash_idem (s : Str) : rstripSlash (rstripSlash s) = rstripSlash s := by
  unfold rstripSlash
  rw [List.reverse_reverse, dropWhile_dropWhile]

theorem rstripSlash_append_replicate (s : Str) :
    ∃ n, s = rstripSlash s ++ List.replicate n '/' := by
  refine ⟨(s.reverse.takeWhile (· == '/')).length, ?_⟩
  unfold rstripSlash
  conv_lhs =>
    rw [← s.reverse_reverse,
      ← List.takeWhile_append_dropWhile (p := (· == '/')) (l := s.reverse)]
  rw [List.reverse_append]
  congr 1
  rw [List.eq_replicate_iff]
  refine ⟨by simp, ?_⟩
  intro b hb
  rw [List.mem_reverse] at hb
  have := List.mem_takeWhile_imp hb
  simpa using this

theorem rstripSlash_prefixOf (s : Str) : rstripSlash s <+: s := by
  obtain ⟨n, hn⟩ := rstripSlash_append_replicate s
  exact ⟨List.replicate n '/', hn.symm⟩

theorem rstripSlash_cons (x : Char) (p : Str)
    (h : rstripSlash p = p) (hp : p ≠ []) : rstripSlash (x :: p) = x :: p := by
  unfold rstripSlash at h ⊢
  have hrev : p.reverse ≠ [] := by simpa using hp
  have h2 : p.reverse.dropWhile (· == '/') = p.reverse := by
    by_cases hd : p.reverse.dropWhile (· == '/') = p.reverse
    · exact hd
    · exfalso
      apply hd
      have := congrArg List.reverse h
      rwa [List.reverse_reverse] at this
  have : (p.reverse ++ [x]).dropWhile (· == '/') = p.reverse ++ [x] :=
    dropWhile_append_of_eq_self [x] h2 hrev
  rw [show (x :: p).reverse = p.reverse ++ [x] by simp, this]
  simp

theorem take_two_append {p r : Str} (h : p.take 2 = ['/', '/']) :
    (p ++ r).take 2 = ['/', '/'] := by
  match p with
  | [] => simp at h
  | [x] => simp at h
  | x :: y :: t =>
    simp at h ⊢
    obtain ⟨h1, h2⟩ := h
    exact ⟨h1, h2⟩

/-- No scheme is split off the given string by `splitScheme`. -/
def noScheme (l : Str) : Prop := splitScheme l = ([], l)

theorem noScheme_of_not_mem {l : Str} (h : ':' ∉ l) : noScheme l := by
  unfold noScheme splitScheme
  rw [splitOnFirst_eq_none h]

theorem noScheme_some {x a b : Str} (hs : splitOnFirst ':' x = some (a, b))
    (h : noScheme x) :
    ¬(a ≠ [] ∧ (a.headD ' ').isAlpha = true ∧ a.all schemeChar = true) := by
  intro hc
  unfold noScheme splitScheme at h
  rw [hs] at h
  dsimp only at h
  rw [if_pos hc] at h
  have h1 : a.map Char.toLower = [] := congrArg Prod.fst h
  simp only [List.map_eq_nil_iff] at h1
  exact hc.1 h1

theorem not_mem_of_splitOnFirst_none {c : Char} {l : Str}
    (h : splitOnFirst c l = none) : c ∉ l := by
  intro hm
  have := splitOnFirst_isSome_of_mem hm
  rw [h] at this
  simp at this

theorem noScheme_append_left {x y : Str} (h : noScheme (x ++ y)) : noScheme x := by
  match hs : splitOnFirst ':' x with
  | none => exact noScheme_of_not_mem (not_mem_of_splitOnFirst_none hs)
  | some (a, b) =>
    obtain ⟨hx, hna⟩ := splitOnFirst_eq_some hs
    have hxy : splitOnFirst ':' (x ++ y) = some (a, b ++ y) := by
      rw [hx, List.append_assoc, List.cons_append]
      exact splitOnFirst_cons_append _ hna
    have hcond := noScheme_some hxy h
    unfold noScheme splitScheme
    rw [hs]
    try dsimp only
    rw [if_neg hcond]

theorem noScheme_append_sep {x y : Str} {c : Char} (hcs : schemeChar c = false)
    (hcc : c ≠ ':') (hx : noScheme x) : noScheme (x ++ c :: y) := by
  match hs : splitOnFirst ':' x with
  | some (a, b) =>
    obtain ⟨hxe, hna⟩ := splitOnFirst_eq_some hs
    have hcond := noScheme_some hs hx
    have hxy : splitOnFirst ':' (x ++ c :: y) = some (a, b ++ c :: y) := by
      rw [hxe, List.append_assoc, List.cons_append]
      exact splitOnFirst_cons_append _ hna
    unfold noScheme splitScheme
    rw [hxy]
    try dsimp only
    rw [if_neg hcond]
  | none =>
    have hnx : ':' ∉ x := not_mem_of_splitOnFirst_none hs
    match hy : splitOnFirst ':' y with
    | none =>
      refine noScheme_of_not_mem ?_
      intro hm
      rcases List.mem_append.mp hm with h1 | h1
      · exact hnx h1
      · rcases List.mem_cons.mp h1 with h2 | h2
        · exact hcc h2.symm
        · exact not_mem_of_splitOnFirst_none hy h2
    | some (ay, byy) =>
      obtain ⟨hye, hnay⟩ := splitOnFirst_eq_some hy
      have hxy : splitOnFirst ':' (x ++ c :: y) = some (x ++ c :: ay, byy) := by
        rw [hye]
        have hassoc : x ++ c :: (ay ++ ':' :: byy) = (x ++ c :: ay) ++ ':' :: byy := by
          simp
        rw [hassoc]
        refine splitOnFirst_cons_append _ ?_
        intro hm
        rcases List.mem_append.mp hm with h1 | h1
        · exact hnx h1
        · rcases List.mem_cons.mp h1 with h2 | h2
          · exact hcc h2.symm
          · exact hnay h2
      unfold noScheme splitScheme
      rw [hxy]
      try dsimp only
      rw [if_neg ?_]
      intro hc
      have hall := hc.2.2
      rw [List.all_eq_true] at hall
      have := hall c (by simp)
      rw [hcs] at this
      exact Bool.noConfusion this

theorem noScheme_head {c0 : Char} (t : Str) (h1 : schemeChar c0 = false)
    (h2 : c0 ≠ ':') : noScheme (c0 :: t) := by
  have : noScheme ([] ++ c0 :: t) :=
    noScheme_append_sep h1 h2 (noScheme_of_not_mem (by simp))
  simpa using this

theorem splitScheme_spec (l : Str) :
    splitScheme l = ([], l) ∨
    ∃ a b, l = a ++ ':' :: b ∧ splitScheme l = (a.map Char.toLower, b) ∧
      a ≠ [] ∧ (a.headD ' ').isAlpha = true ∧ a.all schemeChar = true := by
  unfold splitScheme
  match hs : splitOnFirst ':' l with
  | none => left; rfl
  | some (a, b) =>
    obtain ⟨he, _⟩ := splitOnFirst_eq_some hs
    by_cases hc : a ≠ [] ∧ (a.headD ' ').isAlpha = true ∧ a.all schemeChar = true
    · right
      refine ⟨a, b, he, ?_, hc.1, hc.2.1, hc.2.2⟩
      try dsimp only
      rw [if_pos hc]
    · left
      try dsimp only
      rw [if_neg hc]

/-- Invariant satisfied by the scheme component produced by `urlsplitWith`
with an empty default scheme. -/
def SchemeInv (s : Str) : Prop :=
  s = [] ∨ (s ≠ [] ∧ (s.headD ' ').isAlpha = true ∧ s.all schemeChar = true ∧
    s.map Char.toLower = s)

theorem schemeInv_of_split (l : Str) : SchemeInv (splitScheme l).1 := by
  rcases splitScheme_spec l with h | ⟨a, b, _, hsp, hne, hal, hall⟩
  · left; rw [h]
  · right
    rw [hsp]
    refine ⟨by simpa using hne, ?_, ?_, ?_⟩
    · match a, hne with
      | a0 :: t, _ =>
        simp only [List.map_cons, List.headD_cons]
        exact isAlpha_toLower a0 (by simpa using hal)
    · rw [List.all_eq_true]
      intro c hc
      rw [List.mem_map] at hc
      obtain ⟨d, hd, rfl⟩ := hc
      rw [List.all_eq_true] at hall
      exact schemeChar_toLower d (hall d hd)
    · rw [List.map_map]
      refine List.map_congr_left ?_
      intro d hd
      rw [List.all_eq_true] at hall
      exact toLower_idem_schemeChar d (hall d hd)

theorem splitScheme_snd_subset (l : Str) : (splitScheme l).2 ⊆ l := by
  rcases splitScheme_spec l with h | ⟨a, b, he, hsp, _, _, _⟩
  · rw [h]
    exact fun x hx => hx
  · rw [hsp]
    intro c hc
    rw [he]
    simp [hc]

theorem splitTail_fst_prefixOf (c : Char) (s : Str) : (splitTail c s).1 <+: s := by
  rcases (splitTail_fst_spec c s).2 with h | ⟨h1, _⟩
  · exact ⟨c :: (splitTail c s).2, h.symm⟩
  · rw [h1]

theorem splitTail_snd_subset (c : Char) (s : Str) : (splitTail c s).2 ⊆ s := by
  rcases (splitTail_fst_spec c s).2 with h | ⟨_, h2⟩
  · intro x hx
    rw [h]
    simp [hx]
  · rw [h2]
    intro x hx
    simp at hx

theorem dropWhile_head (p : Char → Bool) (l : Str) :
    l.dropWhile p = [] ∨ p ((l.dropWhile p).headD ' ') = false := by
  induction l with
  | nil => left; rfl
  | cons x xs ih =>
    by_cases hx : p x = true
    · simpa [List.dropWhile, hx] using ih
    · have hx2 : p x = false := by simpa using hx
      right
      simp [List.dropWhile, hx2]

theorem removeUnsafe_not_mem (l : Str) : ∀ c ∈ removeUnsafe l, c ∉ unsafeChars := by
  intro c hc
  rw [removeUnsafe, List.mem_filter] at hc
  simpa using hc.2

theorem prefix_headD {p l : Str} (hpre : p <+: l) (hp : p ≠ []) :
    l.headD ' ' = p.headD ' ' := by
  obtain ⟨t, rfl⟩ := hpre
  cases p with
  | nil => exact absurd rfl hp
  | cons x xs => rfl

theorem netlocDelim_eq_slash {c : Char} (hd : netlocDelim c = true)
    (h1 : c ≠ '#') (h2 : c ≠ '?') : c = '/' := by
  simp only [netlocDelim, Bool.or_eq_true, beq_iff_eq] at hd
  rcases hd with (h | h) | h
  · exact h
  · exact absurd h h2
  · exact absurd h h1

theorem headD_mem {l : Str} (h : l ≠ []) : l.headD ' ' ∈ l := by
  cases l with
  | nil => exact absurd rfl h
  | cons x xs => simp

theorem cleaned_head (u : Str) :
    removeUnsafe (lstripControl u) = [] ∨
      ctlOrSpace ((removeUnsafe (lstripControl u)).headD ' ') = false := by
  rcases hl : lstripControl u with _ | ⟨d, t⟩
  · left; rfl
  · have h2 : (d :: t).dropWhile ctlOrSpace = d :: t := by
      have h3 := dropWhile_dropWhile ctlOrSpace u
      rw [show List.dropWhile ctlOrSpace u = d :: t from hl] at h3
      exact h3
    have hctl := dropWhile_cons_eq_self h2
    have hd : ¬ d ∈ unsafeChars := by
      intro hm
      simp only [unsafeChars, List.mem_cons, List.not_mem_nil, or_false] at hm
      rcases hm with rfl | rfl | rfl <;> simp [ctlOrSpace] at hctl
    have hdb : (!unsafeChars.contains d) = true := by simpa using hd
    right
    rw [removeUnsafe]
    have hf : List.filter (fun c => !unsafeChars.contains c) (d :: t)
        = d :: List.filter (fun c => !unsafeChars.contains c) t := by
      simp [hd]
    rw [hf]
    simpa using hctl

/-- The component bundle of `urlsplitWith u []` written with explicit
intermediate values, for reuse across the invariant lemmas. -/
theorem urlsplitWith_eq (u : Str) :
    urlsplitWith u [] =
      (let u1 := removeUnsafe (lstripControl u)
       let sp := splitScheme u1
       let np := if sp.2.take 2 = ['/', '/'] then splitNetloc (sp.2.drop 2)
                 else ([], sp.2)
       let fp := splitTail '#' np.2
       let qp := splitTail '?' fp.1
       ⟨sp.1, np.1, qp.1, qp.2, fp.2⟩ : SplitResult) := by
  unfold urlsplitWith
  have hd : removeUnsafe (stripControl []) = [] := rfl
  rw [hd]
  try dsimp only
  by_cases h : (splitScheme (removeUnsafe (lstripControl u))).1 = []
  · rw [if_pos h, h]
  · rw [if_neg h]

theorem urlsplit_scheme_inv (u : Str) : SchemeInv (urlsplitWith u []).scheme := by
  rw [urlsplitWith_eq]
  exact schemeInv_of_split _

theorem urlsplit_netloc_delim (u : Str) :
    ∀ c ∈ (urlsplitWith u []).netloc, netlocDelim c = false := by
  rw [urlsplitWith_eq]
  try dsimp only
  by_cases h : (splitScheme (removeUnsafe (lstripControl u))).2.take 2 = ['/', '/']
  · rw [if_pos h]
    intro c hc
    have := List.mem_takeWhile_imp hc
    simpa using this
  · rw [if_neg h]
    intro c hc
    simp at hc

theorem urlsplit_path_query (u : Str) :
    '#' ∉ (urlsplitWith u []).path ∧ '?' ∉ (urlsplitWith u []).path ∧
      '#' ∉ (urlsplitWith u []).query := by
  rw [urlsplitWith_eq]
  try dsimp only
  set np2 := (if (splitScheme (removeUnsafe (lstripControl u))).2.take 2 = ['/', '/'] then
      splitNetloc ((splitScheme (removeUnsafe (lstripControl u))).2.drop 2)
    else ([], (splitScheme (removeUnsafe (lstripControl u))).2)).2 with hnp2
  have h1 : '#' ∉ (splitTail '#' np2).1 := (splitTail_fst_spec '#' np2).1
  have h2 : '?' ∉ (splitTail '?' (splitTail '#' np2).1).1 :=
    (splitTail_fst_spec '?' _).1
  have hpre : (splitTail '?' (splitTail '#' np2).1).1 <+: (splitTail '#' np2).1 :=
    splitTail_fst_prefixOf _ _
  refine ⟨fun hm => h1 (hpre.subset hm), h2, fun hm => ?_⟩
  exact h1 (splitTail_snd_subset '?' _ hm)

theorem urlsplit_subsets (u : Str) :
    (urlsplitWith u []).netloc ⊆ removeUnsafe (lstripControl u) ∧
      (urlsplitWith u []).path ⊆ removeUnsafe (lstripControl u) ∧
      (urlsplitWith u []).query ⊆ removeUnsafe (lstripControl u) := by
  rw [urlsplitWith_eq]
  try dsimp only
  have hu2 := splitScheme_snd_subset (removeUnsafe (lstripControl u))
  by_cases h : (splitScheme (removeUnsafe (lstripControl u))).2.take 2 = ['/', '/']
  · rw [if_pos h]
    try dsimp only
    have hn : (splitNetloc ((splitScheme (removeUnsafe (lstripControl u))).2.drop 2)).1 ⊆
        removeUnsafe (lstripControl u) := by
      intro c hc
      have := (List.takeWhile_sublist _).subset hc
      exact hu2 (List.drop_subset _ _ this)
    have hrest : (splitNetloc ((splitScheme (removeUnsafe (lstripControl u))).2.drop 2)).2 ⊆
        removeUnsafe (lstripControl u) := by
      intro c hc
      have := (List.dropWhile_sublist _).subset hc
      exact hu2 (List.drop_subset _ _ this)
    refine ⟨hn, ?_, ?_⟩
    · intro c hc
      have := (splitTail_fst_prefixOf '?' _).subset hc
      have := (splitTail_fst_prefixOf '#' _).subset this
      exact hrest this
    · intro c hc
      have := splitTail_snd_subset '?' _ hc
      have := (splitTail_fst_prefixOf '#' _).subset this
      exact hrest this
  · rw [if_neg h]
    try dsimp only
    refine ⟨by intro c hc; simp at hc, ?_, ?_⟩
    · intro c hc
      have := (splitTail_fst_prefixOf '?' _).subset hc
      have := (splitTail_fst_prefixOf '#' _).subset this
      exact hu2 this
    · intro c hc
      have := splitTail_snd_subset '?' _ hc
      have := (splitTail_fst_prefixOf '#' _).subset this
      exact hu2 this

theorem path_head_of_chain (R : Str)
    (hp : (splitTail '?' (splitTail '#' R).1).1 ≠ [])
    (hR : R = [] ∨ netlocDelim (R.headD ' ') = true) :
    (splitTail '?' (splitTail '#' R).1).1.headD ' ' = '/' := by
  have hpre : (splitTail '?' (splitTail '#' R).1).1 <+: R :=
    (splitTail_fst_prefixOf '?' _).trans (splitTail_fst_prefixOf '#' _)
  rcases hR with h | h
  · exfalso
    subst h
    exact hp (List.prefix_nil.mp hpre)
  · have hh := prefix_headD hpre hp
    rw [hh] at h
    have hmem := headD_mem hp
    have hnh : (splitTail '?' (splitTail '#' R).1).1.headD ' ' ≠ '#' := by
      intro hc
      have h1 : '#' ∉ (splitTail '#' R).1 := (splitTail_fst_spec '#' R).1
      rw [hc] at hmem
      exact h1 ((splitTail_fst_prefixOf '?' _).subset hmem)
    have hnq : (splitTail '?' (splitTail '#' R).1).1.headD ' ' ≠ '?' := by
      intro hc
      rw [hc] at hmem
      exact (splitTail_fst_spec '?' _).1 hmem
    exact netlocDelim_eq_slash h hnh hnq

theorem urlsplit_path_shape (u : Str) :
    ((splitScheme (removeUnsafe (lstripControl u))).2.take 2 = ['/', '/'] ∧
      ((urlsplitWith u []).path = [] ∨ (urlsplitWith u []).path.headD ' ' = '/')) ∨
    ((splitScheme (removeUnsafe (lstripControl u))).2.take 2 ≠ ['/', '/'] ∧
      (urlsplitWith u []).path <+: (splitScheme (removeUnsafe (lstripControl u))).2) := by
  rw [urlsplitWith_eq]
  try dsimp only
  by_cases h : (splitScheme (removeUnsafe (lstripControl u))).2.take 2 = ['/', '/']
  · left
    rw [if_pos h]
    refine ⟨h, ?_⟩
    by_cases hp : (splitTail '?' (splitTail '#'
        (splitNetloc ((splitScheme (removeUnsafe (lstripControl u))).2.drop 2)).2).1).1 = []
    · left; exact hp
    · right
      refine path_head_of_chain _ hp ?_
      rcases dropWhile_head (fun c => !netlocDelim c)
          ((splitScheme (removeUnsafe (lstripControl u))).2.drop 2) with h2 | h2
      · left; exact h2
      · right; simpa using h2
  · right
    rw [if_neg h]
    exact ⟨h, (splitTail_fst_prefixOf '?' _).trans (splitTail_fst_prefixOf '#' _)⟩

theorem urlsplit_noScheme (u : Str) (h : (urlsplitWith u []).scheme = []) :
    noScheme (removeUnsafe (lstripControl u)) ∧
      (urlsplitWith u []).path <+: removeUnsafe (lstripControl u) ∨
    (splitScheme (removeUnsafe (lstripControl u))).2.take 2 = ['/', '/'] := by
  rw [urlsplitWith_eq] at h
  dsimp only at h
  have hsp : splitScheme (removeUnsafe (lstripControl u)) =
      ([], removeUnsafe (lstripControl u)) := by
    rcases splitScheme_spec (removeUnsafe (lstripControl u)) with h2 | ⟨a, b, _, hsp, hne, _, _⟩
    · exact h2
    · rw [hsp] at h
      dsimp only at h
      rw [List.map_eq_nil_iff] at h
      exact absurd h hne
  rcases urlsplit_path_shape u with ⟨h2, _⟩ | ⟨_, hpre⟩
  · right; exact h2
  · left
    refine ⟨hsp, ?_⟩
    rw [hsp] at hpre
    exact hpre

/-! ### Reparsing the output of `urlunsplit` -/

/-- The stage of `urlsplit` that follows scheme detection. -/
def splitAfterScheme (url2 : Str) : Str × Str × Str × Str :=
  let np := if url2.take 2 = ['/', '/'] then splitNetloc (url2.drop 2) else ([], url2)
  let fp := splitTail '#' np.2
  let qp := splitTail '?' fp.1
  (np.1, qp.1, qp.2, fp.2)

theorem urlsplitWith_decomp (u : Str) (hcl : removeUnsafe (lstripControl u) = u) :
    urlsplitWith u [] =
      ⟨(splitScheme u).1, (splitAfterScheme (splitScheme u).2).1,
        (splitAfterScheme (splitScheme u).2).2.1,
        (splitAfterScheme (splitScheme u).2).2.2.1,
        (splitAfterScheme (splitScheme u).2).2.2.2⟩ := by
  rw [urlsplitWith_eq]
  try dsimp only
  rw [hcl]
  rfl

theorem clean_id (v : Str) (hcl : ∀ c ∈ v, c ∉ unsafeChars)
    (hh : v = [] ∨ ctlOrSpace (v.headD ' ') = false) :
    removeUnsafe (lstripControl v) = v := by
  have h1 : lstripControl v = v := by
    rcases hh with rfl | hh
    · rfl
    · cases v with
      | nil => rfl
      | cons x xs =>
        simp only [List.headD_cons] at hh
        simp [lstripControl, List.dropWhile, hh]
  rw [h1, removeUnsafe, List.filter_eq_self.mpr ?_]
  intro a ha
  simpa using hcl a ha

theorem splitScheme_of_scheme (s rest : Str) (hs : SchemeInv s) (hsne : s ≠ []) :
    splitScheme (s ++ ':' :: rest) = (s, rest) := by
  rcases hs with rfl | ⟨_, hal, hall, hmap⟩
  · exact absurd rfl hsne
  · have hns : ':' ∉ s := by
      intro hm
      rw [List.all_eq_true] at hall
      exact (schemeChar_ne ':' (hall ':' hm)).1 rfl
    unfold splitScheme
    rw [splitOnFirst_cons_append rest hns]
    try dsimp only
    rw [if_pos ⟨hsne, hal, by rw [List.all_eq_true] at hall ⊢; exact hall⟩, hmap]

theorem splitAfterScheme_netloc (n2 pp q : Str)
    (hn : ∀ c ∈ n2, netlocDelim c = false)
    (hpp : pp = [] ∨ pp.headD ' ' = '/')
    (hph : '#' ∉ pp) (hpq : '?' ∉ pp) (hqh : '#' ∉ q) :
    splitAfterScheme ('/' :: '/' :: (n2 ++ (pp ++ if q ≠ [] then '?' :: q else []))) =
      (n2, pp, q, []) := by
  unfold splitAfterScheme
  have htake : ('/' :: '/' :: (n2 ++ (pp ++ if q ≠ [] then '?' :: q else []))).take 2 =
      ['/', '/'] := rfl
  rw [if_pos htake]
  have hdrop : ('/' :: '/' :: (n2 ++ (pp ++ if q ≠ [] then '?' :: q else []))).drop 2 =
      n2 ++ (pp ++ if q ≠ [] then '?' :: q else []) := rfl
  rw [hdrop]
  have hsplit := takeWhile_append_not (p := fun c => !netlocDelim c)
    (a := n2) (b := pp ++ if q ≠ [] then '?' :: q else [])
    (fun x hx => by simp [hn x hx])
    (by
      intro y hy
      rcases hpp with rfl | hpd
      · by_cases hq : q ≠ []
        · rw [if_pos hq] at hy
          simp only [List.nil_append, List.head?_cons, Option.some_inj] at hy
          subst hy
          rfl
        · rw [if_neg hq] at hy
          simp at hy
      · cases pp with
        | nil => simp at hpd
        | cons d t =>
          simp only [List.headD_cons] at hpd
          subst hpd
          simp only [List.cons_append, List.head?_cons, Option.some_inj] at hy
          subst hy
          rfl)
  unfold splitNetloc
  rw [hsplit.1, hsplit.2]
  try dsimp only
  have hfrag : splitTail '#' (pp ++ if q ≠ [] then '?' :: q else []) =
      (pp ++ (if q ≠ [] then '?' :: q else []), []) := by
    refine splitTail_not_mem ?_
    intro hm
    rcases List.mem_append.mp hm with h1 | h1
    · exact hph h1
    · by_cases hq : q ≠ []
      · rw [if_pos hq] at h1
        rcases List.mem_cons.mp h1 with h2 | h2
        · exact absurd h2.symm (by decide)
        · exact hqh h2
      · rw [if_neg hq] at h1
        simp at h1
  rw [hfrag]
  try dsimp only
  by_cases hq : q ≠ []
  · rw [if_pos hq, splitTail_cons_append q hpq]
  · have hqe : q = [] := by simpa using hq
    subst hqe
    rw [if_neg (by simp : ¬([] : Str) ≠ []), List.append_nil, splitTail_not_mem hpq]

theorem splitAfterScheme_plain (p q : Str)
    (htk : (p ++ (if q ≠ [] then '?' :: q else [])).take 2 ≠ ['/', '/'])
    (hph : '#' ∉ p) (hpq : '?' ∉ p) (hqh : '#' ∉ q) :
    splitAfterScheme (p ++ (if q ≠ [] then '?' :: q else [])) = ([], p, q, []) := by
  unfold splitAfterScheme
  rw [if_neg htk]
  try dsimp only
  have hfrag : splitTail '#' (p ++ if q ≠ [] then '?' :: q else []) =
      (p ++ (if q ≠ [] then '?' :: q else []), []) := by
    refine splitTail_not_mem ?_
    intro hm
    rcases List.mem_append.mp hm with h1 | h1
    · exact hph h1
    · by_cases hq : q ≠ []
      · rw [if_pos hq] at h1
        rcases List.mem_cons.mp h1 with h2 | h2
        · exact absurd h2.symm (by decide)
        · exact hqh h2
      · rw [if_neg hq] at h1
        simp at h1
  rw [hfrag]
  try dsimp only
  by_cases hq : q ≠ []
  · rw [if_pos hq, splitTail_cons_append q hpq]
  · have hqe : q = [] := by simpa using hq
    subst hqe
    rw [if_neg (by simp : ¬([] : Str) ≠ []), List.append_nil, splitTail_not_mem hpq]

/-- The `url = chr47 + url` adjustment of `urlunsplit` in the netloc branch. -/
def ppOf (p : Str) : Str := if p ≠ [] ∧ p.take 1 ≠ ['/'] then '/' :: p else p

/-- The scheme prefix emitted by `urlunsplit`. -/
def schemePrefix (s : Str) : Str := if s ≠ [] then s ++ [':'] else []

theorem take2_head {x : Char} {t : Str} (h : (x :: t).take 2 = ['/', '/']) :
    x = '/' := by
  have := congrArg (fun l => l.headD ' ') h
  simpa using this

theorem rstrip_single {x : Char} (h : rstripSlash [x] = [x]) : x ≠ '/' := by
  intro he
  subst he
  have : rstripSlash ['/'] = [] := rfl
  rw [this] at h
  exact List.noConfusion h

theorem take2_ne_append {p : Str} (q : Str) (hstrip : rstripSlash p = p)
    (hsl : p.take 2 ≠ ['/', '/']) :
    (p ++ (if q ≠ [] then '?' :: q else [])).take 2 ≠ ['/', '/'] := by
  match p, hstrip, hsl with
  | [], _, _ =>
    by_cases hq : q ≠ []
    · rw [if_pos hq]
      intro hc
      rw [List.nil_append] at hc
      exact absurd (take2_head hc) (by decide)
    · rw [if_neg hq]
      simp
  | [x], hstrip, _ =>
    intro hc
    rw [List.cons_append, List.nil_append] at hc
    exact rstrip_single hstrip (take2_head hc)
  | x :: y :: t, _, hsl =>
    intro hc
    refine hsl ?_
    simp only [List.cons_append] at hc
    simp only [List.take_succ_cons] at hc ⊢
    exact hc

theorem ppOf_head (p : Str) : ppOf p = [] ∨ (ppOf p).headD ' ' = '/' := by
  unfold ppOf
  by_cases hc : p ≠ [] ∧ p.take 1 ≠ ['/']
  · rw [if_pos hc]; right; rfl
  · rw [if_neg hc]
    push_neg at hc
    by_cases hp : p = []
    · left; exact hp
    · right
      have := hc hp
      cases p with
      | nil => exact absurd rfl hp
      | cons a t =>
        simp only [List.take_succ_cons, List.take_zero] at this
        have ha : a = '/' := by
          have := congrArg (fun l => l.headD ' ') this
          simpa using this
        rw [ha]
        rfl

theorem ppOf_subset (p : Str) : ∀ c ∈ ppOf p, c = '/' ∨ c ∈ p := by
  intro c hc
  unfold ppOf at hc
  by_cases h : p ≠ [] ∧ p.take 1 ≠ ['/']
  · rw [if_pos h] at hc
    rcases List.mem_cons.mp hc with h1 | h1
    · left; exact h1
    · right; exact h1
  · rw [if_neg h] at hc
    right; exact hc

theorem rstrip_ppOf {p : Str} (h : rstripSlash p = p) :
    rstripSlash (ppOf p) = ppOf p := by
  unfold ppOf
  by_cases hc : p ≠ [] ∧ p.take 1 ≠ ['/']
  · rw [if_pos hc]
    exact rstripSlash_cons '/' p h hc.1
  · rw [if_neg hc]
    exact h

theorem ppOf_take2 {p : Str} (hsl : p.take 2 ≠ ['/', '/']) :
    (ppOf p).take 2 ≠ ['/', '/'] := by
  unfold ppOf
  by_cases hc : p ≠ [] ∧ p.take 1 ≠ ['/']
  · rw [if_pos hc]
    intro he
    cases p with
    | nil => exact hc.1 rfl
    | cons a t =>
      simp only [List.take_succ_cons, List.take_zero] at he
      have : a = '/' := by
        have h2 := congrArg (fun l => l.tail.headD ' ') he
        simpa using h2
      exact hc.2 (by rw [this]; rfl)
  · rw [if_neg hc]
    exact hsl

theorem ppOf_idem (p : Str) : ppOf (ppOf p) = ppOf p := by
  rcases ppOf_head p with h | h
  · rw [h]
    simp [ppOf]
  · cases hp : ppOf p with
    | nil => simp [ppOf]
    | cons a t =>
      rw [hp] at h
      simp only [List.headD_cons] at h
      subst h
      unfold ppOf
      rw [if_neg ?_]
      intro hc
      exact hc.2 (by simp)

theorem urlunsplit_shape (s n p q : Str) :
    urlunsplit s n p q [] =
      schemePrefix s ++
        ((if n ≠ [] ∨ (s ≠ [] ∧ usesNetloc.contains s ∧ p.take 2 ≠ ['/', '/']) then
            '/' :: '/' :: (n ++ ppOf p)
          else p) ++ (if q ≠ [] then '?' :: q else [])) := by
  unfold urlunsplit schemePrefix ppOf
  by_cases hC : n ≠ [] ∨ (s ≠ [] ∧ usesNetloc.contains s ∧ p.take 2 ≠ ['/', '/']) <;>
    by_cases hs : s ≠ [] <;> by_cases hq : q ≠ [] <;>
      simp [hC, hs, hq, List.append_assoc]

theorem schemeChar_not_unsafe {c : Char} (h : schemeChar c = true) :
    c ∉ unsafeChars := by
  intro hm
  simp only [unsafeChars, List.mem_cons, List.not_mem_nil, or_false] at hm
  rcases hm with rfl | rfl | rfl <;> exact absurd h (by decide)

theorem schemeInv_not_unsafe {s : Str} (hs : SchemeInv s) :
    ∀ c ∈ s, c ∉ unsafeChars := by
  intro c hc
  rcases hs with rfl | ⟨_, _, hall, _⟩
  · simp at hc
  · rw [List.all_eq_true] at hall
    exact schemeChar_not_unsafe (hall c hc)

theorem headD_append {a : Str} (b : Str) (ha : a ≠ []) :
    (a ++ b).headD ' ' = a.headD ' ' := by
  cases a with
  | nil => exact absurd rfl ha
  | cons x xs => rfl

/-- Core roundtrip fact: a URL assembled by `urlunsplit` from components
satisfying the parser invariants (with a stripped, parameter-free path and
a non-degenerate authority) is a fixed point of `normalise_url`. -/
theorem normalise_stable (s n p q : Str)
    (hs : SchemeInv s)
    (hn : ∀ c ∈ n, netlocDelim c = false)
    (hph : '#' ∉ p) (hpq : '?' ∉ p) (hpsemi : ';' ∉ p)
    (hqh : '#' ∉ q)
    (hcln : ∀ c ∈ n ++ p ++ q, c ∉ unsafeChars)
    (hstrip : rstripSlash p = p)
    (hslash2 : n = [] → p.take 2 ≠ ['/', '/'])
    (hnos : s = [] → n = [] →
      noScheme p ∧ (p ≠ [] → ctlOrSpace (p.headD ' ') = false)) :
    normalise_url (urlunsplit s n p q []) = urlunsplit s n p q [] := by
  have hcn : ∀ c ∈ n, c ∉ unsafeChars := fun c hc =>
    hcln c (by simp [hc])
  have hcp : ∀ c ∈ p, c ∉ unsafeChars := fun c hc =>
    hcln c (by simp [hc])
  have hcq : ∀ c ∈ q, c ∉ unsafeChars := fun c hc =>
    hcln c (by simp [hc])
  have hpph : '#' ∉ ppOf p := by
    intro hm
    rcases ppOf_subset p '#' hm with h1 | h1
    · exact absurd h1 (by decide)
    · exact hph h1
  have hppq : '?' ∉ ppOf p := by
    intro hm
    rcases ppOf_subset p '?' hm with h1 | h1
    · exact absurd h1 (by decide)
    · exact hpq h1
  have hppsemi : ';' ∉ ppOf p := by
    intro hm
    rcases ppOf_subset p ';' hm with h1 | h1
    · exact absurd h1 (by decide)
    · exact hpsemi h1
  have hqpart : ∀ c ∈ (if q ≠ [] then '?' :: q else []), c ∉ unsafeChars := by
    intro c hc
    by_cases hq : q ≠ []
    · rw [if_pos hq] at hc
      rcases List.mem_cons.mp hc with h1 | h1
      · subst h1; decide
      · exact hcq c h1
    · rw [if_neg hq] at hc
      simp at hc
  rw [urlunsplit_shape]
  by_cases hC : n ≠ [] ∨ (s ≠ [] ∧ usesNetloc.contains s ∧ p.take 2 ≠ ['/', '/'])
  · -- the authority form: core is chr47 chr47 netloc ppOf-path
    rw [if_pos hC]
    set qpart := (if q ≠ [] then '?' :: q else []) with hqp
    have hcore : ('/' :: '/' :: (n ++ ppOf p)) ++ qpart =
        '/' :: '/' :: (n ++ (ppOf p ++ qpart)) := by
      simp [List.append_assoc]
    have hrest : ∀ c ∈ '/' :: '/' :: (n ++ (ppOf p ++ qpart)), c ∉ unsafeChars := by
      intro c hc
      rcases List.mem_cons.mp hc with rfl | hc
      · decide
      rcases List.mem_cons.mp hc with rfl | hc
      · decide
      rcases List.mem_append.mp hc with h1 | h1
      · exact hcn c h1
      rcases List.mem_append.mp h1 with h2 | h2
      · rcases ppOf_subset p c h2 with rfl | h3
        · decide
        · exact hcp c h3
      · exact hqpart c h2
    have hafter := splitAfterScheme_netloc n (ppOf p) q hn (ppOf_head p) hpph hppq hqh
    rcases hs with hsnil | hsd
    · -- no scheme
      subst hsnil
      have hv : schemePrefix [] ++ (('/' :: '/' :: (n ++ ppOf p)) ++ qpart) =
          '/' :: '/' :: (n ++ (ppOf p ++ qpart)) := by
        rw [show schemePrefix [] = [] from rfl, List.nil_append, hcore]
      rw [hv]
      have hclean := clean_id _ hrest (Or.inr (by rfl))
      rw [normalise_url, urlparse, urlparseWith, urlsplitWith_decomp _ hclean]
      have hnsch : noScheme ('/' :: '/' :: (n ++ (ppOf p ++ qpart))) :=
        noScheme_head _ (by decide) (by decide)
      rw [hnsch]
      try dsimp only
      rw [hafter]
      try dsimp only
      have hcontains : (ppOf p).contains ';' = false := by
        rw [List.contains_eq_any_beq]
        rw [Bool.eq_false_iff]
        intro hany
        rw [List.any_eq_true] at hany
        obtain ⟨x, hx, hbe⟩ := hany
        rw [beq_iff_eq] at hbe
        subst hbe
        exact hppsemi hx
      rw [if_neg (by rw [hcontains]; simp)]
      try dsimp only
      rw [urlunparse]
      try dsimp only
      rw [if_neg (by simp)]
      rw [rstrip_ppOf hstrip]
      have hC2 : ([] : Str) ≠ [] → False := fun hh => hh rfl
      rw [urlunsplit_shape]
      have hCn : n ≠ [] := by
        rcases hC with h1 | h1
        · exact h1
        · exact absurd rfl h1.1
      rw [if_pos (Or.inl hCn), ppOf_idem]
      rw [show schemePrefix [] = [] from rfl, List.nil_append, hcore]
    · -- scheme present
      have hsne : s ≠ [] := hsd.1
      have hsinv : SchemeInv s := Or.inr hsd
      have hv : schemePrefix s ++ (('/' :: '/' :: (n ++ ppOf p)) ++ qpart) =
          s ++ ':' :: ('/' :: '/' :: (n ++ (ppOf p ++ qpart))) := by
        rw [show schemePrefix s = s ++ [':'] from if_pos hsne, hcore]
        simp
      rw [hv]
      have hcleanv : ∀ c ∈ s ++ ':' :: ('/' :: '/' :: (n ++ (ppOf p ++ qpart))),
          c ∉ unsafeChars := by
        intro c hc
        rcases List.mem_append.mp hc with h1 | h1
        · exact schemeInv_not_unsafe hsinv c h1
        rcases List.mem_cons.mp h1 with rfl | h1
        · decide
        · exact hrest c h1
      have hhead : ctlOrSpace ((s ++ ':' :: ('/' :: '/' :: (n ++ (ppOf p ++ qpart)))).headD ' ') = false := by
        rw [headD_append _ hsne]
        rcases s with _ | ⟨a, t⟩
        · exact absurd rfl hsne
        · exact isAlpha_gt_space a (by simpa using hsd.2.1)
      have hclean := clean_id _ hcleanv (Or.inr hhead)
      rw [normalise_url, urlparse, urlparseWith, urlsplitWith_decomp _ hclean]
      rw [splitScheme_of_scheme s _ hsinv hsne]
      try dsimp only
      rw [hafter]
      try dsimp only
      have hcontains : (ppOf p).contains ';' = false := by
        rw [List.contains_eq_any_beq, Bool.eq_false_iff]
        intro hany
        rw [List.any_eq_true] at hany
        obtain ⟨x, hx, hbe⟩ := hany
        rw [beq_iff_eq] at hbe
        subst hbe
        exact hppsemi hx
      rw [if_neg (by rw [hcontains]; simp)]
      try dsimp only
      rw [urlunparse]
      try dsimp only
      rw [if_neg (by simp)]
      rw [rstrip_ppOf hstrip]
      rw [urlunsplit_shape]
      have hC2 : n ≠ [] ∨ (s ≠ [] ∧ usesNetloc.contains s ∧
          (ppOf p).take 2 ≠ ['/', '/']) := by
        rcases hC with h1 | h1
        · exact Or.inl h1
        · exact Or.inr ⟨h1.1, h1.2.1, ppOf_take2 h1.2.2⟩
      rw [if_pos hC2, ppOf_idem]
      rw [show schemePrefix s = s ++ [':'] from if_pos hsne, hcore]
      simp
  · -- the plain form: core is just the path
    rw [if_neg hC]
    push_neg at hC
    obtain ⟨hnnil, hC⟩ := hC
    set qpart := (if q ≠ [] then '?' :: q else []) with hqp
    have htk := take2_ne_append q hstrip (hslash2 hnnil)
    have hrest : ∀ c ∈ p ++ qpart, c ∉ unsafeChars := by
      intro c hc
      rcases List.mem_append.mp hc with h1 | h1
      · exact hcp c h1
      · exact hqpart c h1
    have hafter := splitAfterScheme_plain p q htk hph hpq hqh
    have hcontains : p.contains ';' = false := by
      rw [List.contains_eq_any_beq, Bool.eq_false_iff]
      intro hany
      rw [List.any_eq_true] at hany
      obtain ⟨x, hx, hbe⟩ := hany
      rw [beq_iff_eq] at hbe
      subst hbe
      exact hpsemi hx
    rcases hs with hsnil | hsd
    · subst hsnil
      obtain ⟨hnsp, hlead⟩ := hnos rfl hnnil
      have hv : schemePrefix [] ++ (p ++ qpart) = p ++ qpart := by
        rw [show schemePrefix [] = [] from rfl, List.nil_append]
      rw [hv]
      have hhead : p ++ qpart = [] ∨ ctlOrSpace ((p ++ qpart).headD ' ') = false := by
        by_cases hp : p = []
        · subst hp
          by_cases hq : q ≠ []
          · right
            rw [List.nil_append, hqp, if_pos hq]
            simp only [List.headD_cons]
            decide
          · left
            rw [List.nil_append, hqp, if_neg hq]
        · right
          rw [headD_append _ hp]
          exact hlead hp
      have hclean := clean_id _ hrest hhead
      rw [normalise_url, urlparse, urlparseWith, urlsplitWith_decomp _ hclean]
      have hnsch : noScheme (p ++ qpart) := by
        by_cases hq : q ≠ []
        · rw [hqp, if_pos hq]
          exact noScheme_append_sep (by decide) (by decide) hnsp
        · rw [hqp, if_neg hq, List.append_nil]
          exact hnsp
      rw [hnsch]
      try dsimp only
      rw [hafter]
      try dsimp only
      rw [if_neg (by rw [hcontains]; simp)]
      try dsimp only
      rw [urlunparse]
      try dsimp only
      rw [if_neg (by simp)]
      rw [hstrip]
      rw [urlunsplit_shape]
      rw [if_neg ?_, show schemePrefix [] = [] from rfl, List.nil_append]
      intro hc
      rcases hc with h1 | h1
      · exact h1 rfl
      · exact absurd rfl h1.1
    · have hsne : s ≠ [] := hsd.1
      have hsinv : SchemeInv s := Or.inr hsd
      have hv : schemePrefix s ++ (p ++ qpart) = s ++ ':' :: (p ++ qpart) := by
        rw [show schemePrefix s = s ++ [':'] from if_pos hsne]
        simp
      rw [hv]
      have hcleanv : ∀ c ∈ s ++ ':' :: (p ++ qpart), c ∉ unsafeChars := by
        intro c hc
        rcases List.mem_append.mp hc with h1 | h1
        · exact schemeInv_not_unsafe hsinv c h1
        rcases List.mem_cons.mp h1 with rfl | h1
        · decide
        · exact hrest c h1
      have hhead : ctlOrSpace ((s ++ ':' :: (p ++ qpart)).headD ' ') = false := by
        rw [headD_append _ hsne]
        rcases s with _ | ⟨a, t⟩
        · exact absurd rfl hsne
        · exact isAlpha_gt_space a (by simpa using hsd.2.1)
      have hclean := clean_id _ hcleanv (Or.inr hhead)
      rw [normalise_url, urlparse, urlparseWith, urlsplitWith_decomp _ hclean]
      rw [splitScheme_of_scheme s _ hsinv hsne]
      try dsimp only
      rw [hafter]
      try dsimp only
      rw [if_neg (by rw [hcontains]; simp)]
      try dsimp only
      rw [urlunparse]
      try dsimp only
      rw [if_neg (by simp)]
      rw [hstrip]
      rw [urlunsplit_shape]
      rw [if_neg ?_, show schemePrefix s = s ++ [':'] from if_pos hsne]
      · rw [hqp]
        simp
      · intro hc
        rcases hc with h1 | h1
        · exact h1 rfl
        · exact h1.2.2 (hC h1.1 h1.2.1)

theorem cleaned_subset (u : Str) : removeUnsafe (lstripControl u) ⊆ u := by
  intro c hc
  rw [removeUnsafe, List.mem_filter] at hc
  exact (List.dropWhile_sublist _).subset hc.1

theorem rstrip_take2 {l : Str} (h : (rstripSlash l).take 2 = ['/', '/']) :
    l.take 2 = ['/', '/'] := by
  obtain ⟨m, hm⟩ := rstripSlash_append_replicate l
  rw [hm]
  exact take_two_append h

theorem noScheme_nil : noScheme [] := noScheme_of_not_mem (by simp)

/-- `normalise_url` written through `urlunsplit` for semicolon-free input. -/
theorem normalise_eq_unsplit (u : Str) (hsemi : ';' ∉ u) :
    normalise_url u =
      urlunsplit (urlsplitWith u []).scheme (urlsplitWith u []).netloc
        (rstripSlash (urlsplitWith u []).path) (urlsplitWith u []).query [] := by
  rw [normalise_url, urlparse, urlparseWith]
  have hsub := (urlsplit_subsets u).2.1
  have hsemi1 : ';' ∉ (urlsplitWith u []).path := fun hm =>
    hsemi (cleaned_subset u (hsub hm))
  have hcontains : (urlsplitWith u []).path.contains ';' = false := by
    rw [List.contains_eq_any_beq, Bool.eq_false_iff]
    intro hany
    rw [List.any_eq_true] at hany
    obtain ⟨x, hx, hbe⟩ := hany
    rw [beq_iff_eq] at hbe
    subst hbe
    exact hsemi1 hx
  rw [if_neg (by rw [hcontains]; simp)]
  try dsimp only
  rw [urlunparse]
  try dsimp only
  rw [if_neg (by simp)]

/-- C5 (amended form): idempotence of URL normalisation holds for every
URL without a semicolon whose parse has a nonempty authority or a path
not beginning with two slashes. -/
theorem normalise_url_idem_amended (u : Str) (h1 : ';' ∉ u)
    (h2 : (urlparse u).netloc ≠ [] ∨ (urlparse u).path.take 2 ≠ ['/', '/']) :
    normalise_url (normalise_url u) = normalise_url u := by
  have hsub := urlsplit_subsets u
  have hsemi1 : ';' ∉ (urlsplitWith u []).path := fun hm =>
    h1 (cleaned_subset u (hsub.2.1 hm))
  have hparse_eq : urlparse u = ⟨(urlsplitWith u []).scheme, (urlsplitWith u []).netloc,
      (urlsplitWith u []).path, [], (urlsplitWith u []).query,
      (urlsplitWith u []).fragment⟩ := by
    rw [urlparse, urlparseWith]
    have hcontains : (urlsplitWith u []).path.contains ';' = false := by
      rw [List.contains_eq_any_beq, Bool.eq_false_iff]
      intro hany
      rw [List.any_eq_true] at hany
      obtain ⟨x, hx, hbe⟩ := hany
      rw [beq_iff_eq] at hbe
      subst hbe
      exact hsemi1 hx
    rw [if_neg (by rw [hcontains]; simp)]
  rw [normalise_eq_unsplit u h1]
  have hp2 : (urlparse u).netloc = (urlsplitWith u []).netloc ∧
      (urlparse u).path = (urlsplitWith u []).path := by
    rw [hparse_eq]
    exact ⟨rfl, rfl⟩
  refine normalise_stable _ _ _ _ (urlsplit_scheme_inv u) (urlsplit_netloc_delim u)
    ?_ ?_ ?_ (urlsplit_path_query u).2.2 ?_ (rstripSlash_idem _) ?_ ?_
  · intro hm
    exact (urlsplit_path_query u).1 ((rstripSlash_prefixOf _).subset hm)
  · intro hm
    exact (urlsplit_path_query u).2.1 ((rstripSlash_prefixOf _).subset hm)
  · intro hm
    exact hsemi1 ((rstripSlash_prefixOf _).subset hm)
  · intro c hc
    rcases List.mem_append.mp hc with hc1 | hc1
    · rcases List.mem_append.mp hc1 with hc2 | hc2
      · exact removeUnsafe_not_mem _ c (hsub.1 hc2)
      · exact removeUnsafe_not_mem _ c
          (hsub.2.1 ((rstripSlash_prefixOf _).subset hc2))
    · exact removeUnsafe_not_mem _ c (hsub.2.2 hc1)
  · intro hnl hc
    rcases h2 with h3 | h3
    · exact h3 (hp2.1.symm ▸ hnl)
    · rw [hp2.2] at h3
      exact h3 (rstrip_take2 hc)
  · intro hsnil hnnil
    have hscheme : (urlsplitWith u []).scheme = [] := hsnil
    rcases urlsplit_noScheme u hscheme with ⟨hns, hpre⟩ | htk2
    · constructor
      · obtain ⟨t1, ht1⟩ := rstripSlash_prefixOf (urlsplitWith u []).path
        obtain ⟨t2, ht2⟩ := hpre
        have hns2 : noScheme ((urlsplitWith u []).path ++ t2) := by
          rw [ht2]; exact hns
        have hns4 : noScheme (rstripSlash (urlsplitWith u []).path ++ t1) := by
          rw [ht1]; exact noScheme_append_left hns2
        exact noScheme_append_left hns4
      · intro hne
        have hpne : (urlsplitWith u []).path ≠ [] := by
          intro he
          rw [he] at hne
          exact hne rfl
        have hu1ne : removeUnsafe (lstripControl u) ≠ [] := by
          intro he
          obtain ⟨t2, ht2⟩ := hpre
          rw [he] at ht2
          exact hpne (List.append_eq_nil.mp ht2).1
        have hh1 := prefix_headD hpre hpne
        have hh2 := prefix_headD (rstripSlash_prefixOf (urlsplitWith u []).path) hne
        rcases cleaned_head u with he | hctl
        · exact absurd he hu1ne
        · rw [hh1, hh2] at hctl
          exact hctl
    · rcases urlsplit_path_shape u with ⟨_, hshape⟩ | ⟨hne2, _⟩
      · rcases hshape with hpnil | hhead
        · rw [hpnil]
          have : rstripSlash ([] : Str) = [] := rfl
          rw [this]
          exact ⟨noScheme_nil, fun hh => absurd rfl hh⟩
        · constructor
          · by_cases hrs : rstripSlash (urlsplitWith u []).path = []
            · rw [hrs]; exact noScheme_nil
            · have hpne : (urlsplitWith u []).path ≠ [] := by
                intro he
                rw [he] at hrs
                exact hrs rfl
              have hh := prefix_headD (rstripSlash_prefixOf (urlsplitWith u []).path) hrs
              rw [hhead] at hh
              cases hx : rstripSlash (urlsplitWith u []).path with
              | nil => exact absurd hx hrs
              | cons d t =>
                rw [hx] at hh
                simp only [List.headD_cons] at hh
                subst hh
                exact noScheme_head t (by decide) (by decide)
          · intro hne
            have hh := prefix_headD (rstripSlash_prefixOf (urlsplitWith u []).path) hne
            rw [hhead] at hh
            rw [← hh]
            decide
      · exact absurd htk2 hne2

/-- C5 (counterexample): `normalise_url` is not idempotent as claimed; a
path parameter after a stripped slash moves across the semicolon, and a
path of slashes after an empty authority collapses. -/
theorem normalise_url_not_idempotent :
    normalise_url (normalise_url ("http://h/a/;x/".data)) ≠
        normalise_url ("http://h/a/;x/".data) ∧
      normalise_url (normalise_url ("http://////x".data)) ≠
        normalise_url ("http://////x".data) := by
  decide

/-- C5 amended-claim witness at a concrete input. -/
theorem normalise_url_idem_witness :
    (';' ∉ ("https://example.com/about/".data)) ∧
      normalise_url (normalise_url ("https://example.com/about/".data)) =
        normalise_url ("https://example.com/about/".data) :=
  ⟨by decide, normalise_url_idem_amended _ (by decide) (by decide)⟩

/-! ### The URL extractor (`parser.extract_urls`)

HTML tokenisation is done by BeautifulSoup, an external library outside
this repository; the embedding therefore quantifies over the element
stream `find_all` yields (a tag name with its attributes) and models the
extraction loop of `extract_urls` over that stream exactly. -/

structure HtmlElement where
  name : Str
  attrs : List (Str × Str)
deriving Repr, DecidableEq

/-- `element.get(attr)`. -/
def attrGet (e : HtmlElement) (a : Str) : Option Str :=
  (e.attrs.find? (fun pr => pr.1 == a)).map Prod.snd

/-- The `_TAG_ATTRS` table, accessed as `_TAG_ATTRS.get(element.name, ())`. -/
def tagAttrs (name : Str) : List Str :=
  if name = "a".data then ["href".data]
  else if name = "area".data then ["href".data]
  else if name = "audio".data then ["src".data]
  else if name = "embed".data then ["src".data]
  else if name = "iframe".data then ["src".data]
  else if name = "img".data then ["src".data]
  else if name = "link".data then ["href".data]
  else if name = "script".data then ["src".data]
  else if name = "source".data then ["src".data]
  else if name = "track".data then ["src".data]
  else if name = "video".data then ["src".data, "poster".data]
  else []

/-- The attribute values visited for one element, in attribute-table order. -/
def elementValues (e : HtmlElement) : List Str :=
  (tagAttrs e.name).filterMap (attrGet e)

/-- One iteration of the extraction loop: the state is the `seen` set and
the output list `urls`. -/
def extractStep (base : Str) (st : List Str × List Str) (v : Str) :
    List Str × List Str :=
  if v = [] ∨ v.headD ' ' = '#' then st
  else
    let resolved := urljoin base v
    if (urlparse resolved).scheme ≠ "http".data ∧
        (urlparse resolved).scheme ≠ "https".data then st
    else
      let normalised := normalise_url resolved
      if normalised ∈ st.1 then st
      else (normalised :: st.1, st.2 ++ [normalised])

/-- The loop of `extract_urls` over the element stream. -/
def extract_urls_list (elems : List HtmlElement) (base : Str) : List Str :=
  (elems.foldl (fun st e => (elementValues e).foldl (extractStep base) st)
    ([], [])).2

/-- The netloc condition under which `urlsplit` raises
`ValueError("Invalid IPv6 URL")`. -/
def bracketMismatch (n : Str) : Bool :=
  (n.contains '[' && !n.contains ']') || (n.contains ']' && !n.contains '[')

/-- `netloc.partition('[')[2].partition(']')[0]`: the bracketed host
that `_check_bracketed_host` validates. -/
def bracketedHostOf (n : Str) : Str :=
  match splitOnFirst '[' n with
  | none => []
  | some pr =>
    match splitOnFirst ']' pr.2 with
    | none => pr.2
    | some qr => qr.1

/-- `str.isascii`. -/
def asciiStr (s : Str) : Bool := s.all (fun c => decide (c.toNat ≤ 127))

/-- Whether `urlsplit` raises `ValueError` on `url`.  The three raise
sites of the 3.11.6 source: the bracket-mismatch check and the
bracketed-host check fire on the netloc right after `_splitnetloc`
(the netloc does not depend on the default-scheme argument), and
`_checknetloc` returns at once for an empty or ASCII netloc.  The
validity semantics the stdlib delegates to external modules are
abstracted as oracles, as percent-coding is in the robots model:
`hostBad h` is `_check_bracketed_host(h)` raising (an `ipaddress`
question) and `nfkcBad n` is the NFKC condition of `_checknetloc`
(a `unicodedata` question). -/
def urlsplitRaises (hostBad nfkcBad : Str → Bool) (url : Str) : Bool :=
  let n := (urlsplitWith url []).netloc
  bracketMismatch n ||
    (n.contains '[' && n.contains ']' && hostBad (bracketedHostOf n)) ||
    (!n.isEmpty && !asciiStr n && nfkcBad n)

/-- Whether `urljoin base url` raises: `urljoin` returns early when
either argument is empty and otherwise calls `urlsplit` on both. -/
def urljoinRaises (hostBad nfkcBad : Str → Bool) (base url : Str) : Bool :=
  if base = [] then false
  else if url = [] then false
  else urlsplitRaises hostBad nfkcBad base || urlsplitRaises hostBad nfkcBad url

/-- Whether processing one attribute value raises `ValueError`:
line 48 of parser.py joins, line 49 parses the joined URL, and the
later `normalise_url` parses the same string again, adding no new
failure. -/
def valueRaises (hostBad nfkcBad : Str → Bool) (base v : Str) : Bool :=
  urljoinRaises hostBad nfkcBad base v ||
    urlsplitRaises hostBad nfkcBad (urljoin base v)

/-- Whether the loop of `extract_urls` raises `ValueError` out of
`urljoin`/`urlparse`: some attribute value that passes the empty/`#`
gate of line 45 is malformed. -/
def hasBadValue (hostBad nfkcBad : Str → Bool)
    (elems : List HtmlElement) (base : Str) : Bool :=
  elems.any (fun e => (elementValues e).any (fun v =>
    if v = [] ∨ v.headD ' ' = '#' then false
    else valueRaises hostBad nfkcBad base v))

inductive ExtractError where
  | invalidArgument
  | invalidUrl
deriving Repr, DecidableEq

/-- `extract_urls`, with BeautifulSoup abstracted as `findAll`.  The
guard of line 31 raises for an empty base, line 36 returns `[]` for an
empty body, and the loop propagates the `ValueError` of
`urljoin`/`urlparse` when it processes a malformed URL, discarding
everything extracted before it. -/
def extract_urls (hostBad nfkcBad : Str → Bool)
    (findAll : Str → List HtmlElement) (html base : Str) :
    Except ExtractError (List Str) :=
  if base = [] then .error .invalidArgument
  else if html = [] then .ok []
  else if hasBadValue hostBad nfkcBad (findAll html) base then
    .error .invalidUrl
  else .ok (extract_urls_list (findAll html) base)

/-- The candidate produced by one attribute value, when it is not skipped. -/
def candOf (base v : Str) : Option Str :=
  if v = [] ∨ v.headD ' ' = '#' then none
  else if (urlparse (urljoin base v)).scheme = "http".data ∨
      (urlparse (urljoin base v)).scheme = "https".data then
    some (normalise_url (urljoin base v))
  else none

/-- All candidates of the element stream, in document order. -/
def candidateList (elems : List HtmlElement) (base : Str) : List Str :=
  elems.flatMap (fun e => (elementValues e).filterMap (candOf base))

/-- Keep the first occurrence of each entry not yet seen. -/
def dedupKeepFirst (seen : List Str) : List Str → List Str
  | [] => []
  | x :: xs =>
    if x ∈ seen then dedupKeepFirst seen xs
    else x :: dedupKeepFirst (x :: seen) xs

/-- C7 counterexample: failure does not imply an empty base.  A body
whose anchor carries `href="http://[::1/x"` — an authority containing
`'['` with no `']'` — makes `urljoin` raise
`ValueError("Invalid IPv6 URL")` with the non-empty base `http://h`,
whatever the bracketed-host and NFKC oracles say (the mismatch check
fires before either). -/
theorem extract_urls_error_nonempty_base :
    "http://h".data ≠ ([] : Str) ∧
      ∀ hostBad nfkcBad : Str → Bool,
        extract_urls hostBad nfkcBad
            (fun _ => [⟨"a".data, [("href".data, "http://[::1/x".data)]⟩])
            "x".data "http://h".data =
          Except.error ExtractError.invalidUrl := by
  refine ⟨by decide, fun hostBad nfkcBad => ?_⟩
  have hbad : hasBadValue hostBad nfkcBad
      [⟨"a".data, [("href".data, "http://[::1/x".data)]⟩]
      "http://h".data = true := by
    have hmis : bracketMismatch
        (urlsplitWith "http://[::1/x".data []).netloc = true := by decide
    have hsplit : urlsplitRaises hostBad nfkcBad "http://[::1/x".data = true := by
      rw [urlsplitRaises, hmis]
      rfl
    rw [hasBadValue]
    simp only [List.any_cons, List.any_nil, Bool.or_false]
    rw [show elementValues ⟨"a".data, [("href".data, "http://[::1/x".data)]⟩ =
      ["http://[::1/x".data] from rfl]
    simp only [List.any_cons, List.any_nil, Bool.or_false]
    rw [if_neg (by decide), valueRaises, urljoinRaises,
      if_neg (by decide), if_neg (by decide), hsplit]
    rfl
  rw [extract_urls, if_neg (by decide), if_neg (by decide), if_pos hbad]

/-- C7 amended: `extract_urls` fails with `ValueError` on an empty base
URL whatever the body is; with a non-empty base it returns `[]` for an
empty body, and it fails exactly when the base is empty or some
processed attribute value is a malformed URL — the empty-base error
specifically occurs only for an empty base.  Quantified over the
bracketed-host and NFKC validity oracles of `urlsplit`. -/
theorem extract_urls_error_spec (hostBad nfkcBad : Str → Bool)
    (findAll : Str → List HtmlElement) (html base : Str) :
    ((∃ e, extract_urls hostBad nfkcBad findAll html base = .error e) ↔
      (base = [] ∨ (html ≠ [] ∧
        hasBadValue hostBad nfkcBad (findAll html) base = true))) ∧
      (extract_urls hostBad nfkcBad findAll html base =
          .error .invalidArgument ↔ base = []) ∧
      (base ≠ [] → extract_urls hostBad nfkcBad findAll [] base = .ok []) := by
  refine ⟨⟨?_, ?_⟩, ⟨?_, ?_⟩, ?_⟩
  · rintro ⟨e, he⟩
    by_cases hb : base = []
    · exact Or.inl hb
    · by_cases hh : html = []
      · rw [extract_urls, if_neg hb, if_pos hh] at he
        exact Except.noConfusion he
      · refine Or.inr ⟨hh, ?_⟩
        by_cases hbad : hasBadValue hostBad nfkcBad (findAll html) base = true
        · exact hbad
        · rw [extract_urls, if_neg hb, if_neg hh, if_neg hbad] at he
          exact Except.noConfusion he
  · intro hor
    by_cases hb : base = []
    · exact ⟨.invalidArgument, by rw [extract_urls, if_pos hb]⟩
    · rcases hor with hb2 | ⟨hh, hbad⟩
      · exact absurd hb2 hb
      · exact ⟨.invalidUrl,
          by rw [extract_urls, if_neg hb, if_neg hh, if_pos hbad]⟩
  · intro he
    by_cases hb : base = []
    · exact hb
    · exfalso
      rw [extract_urls, if_neg hb] at he
      by_cases hh : html = []
      · rw [if_pos hh] at he
        exact Except.noConfusion he
      · rw [if_neg hh] at he
        by_cases hbad : hasBadValue hostBad nfkcBad (findAll html) base = true
        · rw [if_pos hbad] at he
          have := Except.error.inj he
          exact ExtractError.noConfusion this
        · rw [if_neg hbad] at he
          exact Except.noConfusion he
  · intro hb
    rw [extract_urls, if_pos hb]
  · intro hb
    rw [extract_urls, if_neg hb, if_pos rfl]

/-- C7 amended-claim witness at concrete oracles, stream and base. -/
theorem extract_urls_error_spec_witness :
    ((∃ e, extract_urls (fun _ => false) (fun _ => false) (fun _ => [])
        "x".data "http://h".data = .error e) ↔
      ("http://h".data = ([] : Str) ∨ ("x".data ≠ ([] : Str) ∧
        hasBadValue (fun _ => false) (fun _ => false)
          ((fun _ => ([] : List HtmlElement)) "x".data)
          "http://h".data = true))) ∧
      (extract_urls (fun _ => false) (fun _ => false) (fun _ => [])
          "x".data "http://h".data =
          .error .invalidArgument ↔ "http://h".data = ([] : Str)) ∧
      ("http://h".data ≠ ([] : Str) →
        extract_urls (fun _ => false) (fun _ => false) (fun _ => [])
          [] "http://h".data = .ok []) :=
  extract_urls_error_spec (fun _ => false) (fun _ => false) (fun _ => [])
    "x".data "http://h".data

theorem extractStep_eq (base : Str) (st : List Str × List Str) (v : Str) :
    extractStep base st v =
      match candOf base v with
      | none => st
      | some c => if c ∈ st.1 then st else (c :: st.1, st.2 ++ [c]) := by
  unfold extractStep candOf
  by_cases h1 : v = [] ∨ v.headD ' ' = '#'
  · rw [if_pos h1, if_pos h1]
  · rw [if_neg h1, if_neg h1]
    by_cases h2 : (urlparse (urljoin base v)).scheme = "http".data ∨
        (urlparse (urljoin base v)).scheme = "https".data
    · have h3 : ¬((urlparse (urljoin base v)).scheme ≠ "http".data ∧
          (urlparse (urljoin base v)).scheme ≠ "https".data) := by
        intro hc
        rcases h2 with h4 | h4
        · exact hc.1 h4
        · exact hc.2 h4
      rw [if_neg h3, if_pos h2]
    · have h3 : (urlparse (urljoin base v)).scheme ≠ "http".data ∧
          (urlparse (urljoin base v)).scheme ≠ "https".data := by
        push_neg at h2
        exact h2
      rw [if_pos h3, if_neg h2]

theorem dedupKeepFirst_cons (seen : List Str) (x : Str) (xs : List Str) :
    dedupKeepFirst seen (x :: xs) =
      if x ∈ seen then dedupKeepFirst seen xs
      else x :: dedupKeepFirst (x :: seen) xs := rfl

theorem dedupKeepFirst_cons_mem {seen : List Str} {x : Str} (xs : List Str)
    (h : x ∈ seen) : dedupKeepFirst seen (x :: xs) = dedupKeepFirst seen xs := by
  rw [dedupKeepFirst_cons, if_pos h]

theorem dedupKeepFirst_cons_not_mem {seen : List Str} {x : Str} (xs : List Str)
    (h : x ∉ seen) :
    dedupKeepFirst seen (x :: xs) = x :: dedupKeepFirst (x :: seen) xs := by
  rw [dedupKeepFirst_cons, if_neg h]

theorem foldl_extract (base : Str) (vs : List Str) :
    ∀ seen urls : List Str,
      (vs.foldl (extractStep base) (seen, urls)).2 =
        urls ++ dedupKeepFirst seen (vs.filterMap (candOf base)) ∧
      ∀ x, x ∈ (vs.foldl (extractStep base) (seen, urls)).1 ↔
        x ∈ seen ∨ x ∈ dedupKeepFirst seen (vs.filterMap (candOf base)) := by
  induction vs with
  | nil =>
    intro seen urls
    simp [dedupKeepFirst]
  | cons v rest ih =>
    intro seen urls
    rcases hc : candOf base v with _ | c
    · have hfm : (v :: rest).filterMap (candOf base) =
          rest.filterMap (candOf base) := by
        rw [List.filterMap_cons, hc]
      rw [List.foldl_cons, extractStep_eq, hc, hfm]
      exact ih seen urls
    · have hfm : (v :: rest).filterMap (candOf base) =
          c :: rest.filterMap (candOf base) := by
        rw [List.filterMap_cons, hc]
      rw [List.foldl_cons, extractStep_eq, hc, hfm]
      try dsimp only
      by_cases hm : c ∈ seen
      · rw [if_pos (by exact hm), dedupKeepFirst_cons_mem _ hm]
        exact ih seen urls
      · rw [if_neg (by exact hm), dedupKeepFirst_cons_not_mem _ hm]
        obtain ⟨h1, h2⟩ := ih (c :: seen) (urls ++ [c])
        refine ⟨?_, ?_⟩
        · rw [h1, List.append_assoc]
          rfl
        · intro x
          rw [h2 x]
          constructor
          · rintro (hx | hx)
            · rcases List.mem_cons.mp hx with rfl | hx2
              · right; exact List.mem_cons_self _ _
              · left; exact hx2
            · right; exact List.mem_cons_of_mem _ hx
          · rintro (hx | hx)
            · left; exact List.mem_cons_of_mem _ hx
            · rcases List.mem_cons.mp hx with rfl | hx2
              · left; exact List.mem_cons_self _ _
              · right; exact hx2

theorem dedupKeepFirst_nodup (l : List Str) :
    ∀ seen, (dedupKeepFirst seen l).Nodup ∧
      ∀ x ∈ dedupKeepFirst seen l, x ∉ seen := by
  induction l with
  | nil => intro seen; simp [dedupKeepFirst]
  | cons x xs ih =>
    intro seen
    by_cases hm : x ∈ seen
    · rw [dedupKeepFirst_cons_mem _ hm]
      exact ih seen
    · rw [dedupKeepFirst_cons_not_mem _ hm]
      obtain ⟨h1, h2⟩ := ih (x :: seen)
      refine ⟨List.nodup_cons.mpr ⟨?_, h1⟩, ?_⟩
      · intro hx
        exact h2 x hx (List.mem_cons_self _ _)
      · intro y hy
        rcases List.mem_cons.mp hy with rfl | hy2
        · exact hm
        · intro hys
          exact h2 y hy2 (List.mem_cons_of_mem _ hys)

theorem dedupKeepFirst_subset (l : List Str) :
    ∀ seen, dedupKeepFirst seen l ⊆ l := by
  induction l with
  | nil => intro seen; simp [dedupKeepFirst]
  | cons x xs ih =>
    intro seen y hy
    by_cases hm : x ∈ seen
    · rw [dedupKeepFirst_cons_mem _ hm] at hy
      exact List.mem_cons_of_mem _ (ih seen hy)
    · rw [dedupKeepFirst_cons_not_mem _ hm] at hy
      rcases List.mem_cons.mp hy with rfl | hy2
      · exact List.mem_cons_self _ _
      · exact List.mem_cons_of_mem _ (ih (x :: seen) hy2)

theorem foldl_inner (base : Str) (elems : List HtmlElement) :
    ∀ st, elems.foldl (fun st e => (elementValues e).foldl (extractStep base) st) st =
      (elems.flatMap elementValues).foldl (extractStep base) st := by
  induction elems with
  | nil => intro st; simp
  | cons e rest ih =>
    intro st
    rw [List.foldl_cons, ih, List.flatMap_cons, List.foldl_append]

theorem filterMap_flatMap_values (base : Str) (elems : List HtmlElement) :
    (elems.flatMap elementValues).filterMap (candOf base) =
      candidateList elems base := by
  rw [candidateList]
  induction elems with
  | nil => simp
  | cons e rest ih =>
    rw [List.flatMap_cons, List.flatMap_cons, List.filterMap_append, ih]

/-- The output of the extraction loop is the first-occurrence deduplication
of the candidate list. -/
theorem extract_urls_list_eq (elems : List HtmlElement) (base : Str) :
    extract_urls_list elems base = dedupKeepFirst [] (candidateList elems base) := by
  rw [extract_urls_list, foldl_inner]
  have h := (foldl_extract base (elems.flatMap elementValues) [] []).1
  rw [h, filterMap_flatMap_values]
  rfl

theorem splitOnLast_eq_some {c : Char} {s a b : Str}
    (h : splitOnLast c s = some (a, b)) : s = a ++ c :: b := by
  rw [splitOnLast] at h
  match hs : splitOnFirst c s.reverse with
  | none => rw [hs] at h; simp at h
  | some (x, y) =>
    rw [hs] at h
    simp only [Option.map_some', Option.some_inj, Prod.mk.injEq] at h
    obtain ⟨h1, h2⟩ := h
    obtain ⟨he, _⟩ := splitOnFirst_eq_some hs
    have hrev := congrArg List.reverse he
    rw [List.reverse_reverse] at hrev
    rw [hrev, ← h1, ← h2]
    simp

theorem splitParams_subsets (url : Str) :
    (splitParams url).1 ⊆ url ∧ (splitParams url).2 ⊆ url := by
  rw [splitParams]
  by_cases h : url.contains '/'
  · rw [if_pos h]
    match hl : splitOnLast '/' url with
    | none => exact ⟨fun x hx => hx, fun x hx => by simp at hx⟩
    | some (bef, aft) =>
      have he := splitOnLast_eq_some hl
      try dsimp only
      match hf : splitOnFirst ';' aft with
      | none =>
        try dsimp only
        exact ⟨fun x hx => hx, fun x hx => by simp at hx⟩
      | some (a1, a2) =>
        obtain ⟨he2, _⟩ := splitOnFirst_eq_some hf
        try dsimp only
        constructor
        · intro x hx
          rw [he, he2]
          rcases List.mem_append.mp hx with h1 | h1
          · simp [h1]
          · rcases List.mem_cons.mp h1 with rfl | h2
            · simp
            · simp [h2]
        · intro x hx
          rw [he, he2]
          simp [hx]
  · rw [if_neg h]
    match hf : splitOnFirst ';' url with
    | none =>
      try dsimp only
      exact ⟨fun x hx => hx, fun x hx => by simp at hx⟩
    | some (a1, a2) =>
      obtain ⟨he2, _⟩ := splitOnFirst_eq_some hf
      try dsimp only
      constructor
      · intro x hx
        rw [he2]
        simp [hx]
      · intro x hx
        rw [he2]
        simp [hx]

theorem urlparse_fields (u d : Str) :
    (urlparseWith u d).scheme = (urlsplitWith u d).scheme ∧
      (urlparseWith u d).netloc = (urlsplitWith u d).netloc ∧
      (urlparseWith u d).query = (urlsplitWith u d).query := by
  rw [urlparseWith]
  by_cases h : usesParams.contains (urlsplitWith u d).scheme ∧
      (urlsplitWith u d).path.contains ';'
  · rw [if_pos h]
    exact ⟨rfl, rfl, rfl⟩
  · rw [if_neg h]
    exact ⟨rfl, rfl, rfl⟩

theorem urlparse_path_params_subset (u : Str) :
    (urlparse u).path ⊆ (urlsplitWith u []).path ∧
      (urlparse u).params ⊆ (urlsplitWith u []).path := by
  rw [urlparse, urlparseWith]
  by_cases h : usesParams.contains (urlsplitWith u []).scheme ∧
      (urlsplitWith u []).path.contains ';'
  · rw [if_pos h]
    exact splitParams_subsets _
  · rw [if_neg h]
    exact ⟨fun x hx => hx, fun x hx => by simp at hx⟩

theorem urlsplit_scheme_of_unsplit (S N P2 Q : Str)
    (hSinv : SchemeInv S) (hSne : S ≠ [])
    (hcl : ∀ c ∈ N ++ P2 ++ Q, c ∉ unsafeChars) :
    (urlsplitWith (urlunsplit S N P2 Q []) []).scheme = S := by
  rw [urlunsplit_shape]
  set core := (if N ≠ [] ∨ (S ≠ [] ∧ usesNetloc.contains S ∧ P2.take 2 ≠ ['/', '/']) then
      '/' :: '/' :: (N ++ ppOf P2) else P2) ++ (if Q ≠ [] then '?' :: Q else [])
    with hcore
  have hv : schemePrefix S ++ core = S ++ ':' :: core := by
    rw [show schemePrefix S = S ++ [':'] from if_pos hSne]
    simp
  rw [hv]
  have hclv : ∀ c ∈ S ++ ':' :: core, c ∉ unsafeChars := by
    intro c hc
    rcases List.mem_append.mp hc with h1 | h1
    · exact schemeInv_not_unsafe hSinv c h1
    rcases List.mem_cons.mp h1 with rfl | h1
    · decide
    rw [hcore] at h1
    rcases List.mem_append.mp h1 with h2 | h2
    · by_cases hC : N ≠ [] ∨ (S ≠ [] ∧ usesNetloc.contains S ∧ P2.take 2 ≠ ['/', '/'])
      · rw [if_pos hC] at h2
        rcases List.mem_cons.mp h2 with rfl | h2
        · decide
        rcases List.mem_cons.mp h2 with rfl | h2
        · decide
        rcases List.mem_append.mp h2 with h3 | h3
        · exact hcl c (by simp [h3])
        · rcases ppOf_subset P2 c h3 with rfl | h4
          · decide
          · exact hcl c (by simp [h4])
      · rw [if_neg hC] at h2
        exact hcl c (by simp [h2])
    · by_cases hq : Q ≠ []
      · rw [if_pos hq] at h2
        rcases List.mem_cons.mp h2 with rfl | h2
        · decide
        · exact hcl c (by simp [h2])
      · rw [if_neg hq] at h2
        simp at h2
  have hhead : ctlOrSpace ((S ++ ':' :: core).headD ' ') = false := by
    rw [headD_append _ hSne]
    rcases hSinv with rfl | hsd
    · exact absurd rfl hSne
    · rcases hS : S with _ | ⟨a, t⟩
      · exact absurd hS hSne
      · have := hsd.2.1
        rw [hS] at this
        exact isAlpha_gt_space a (by simpa using this)
  rw [urlsplitWith_decomp _ (clean_id _ hclv (Or.inr hhead))]
  rw [splitScheme_of_scheme S _ hSinv hSne]

theorem normalise_scheme (r : Str) (hsne : (urlparse r).scheme ≠ []) :
    (urlparse (normalise_url r)).scheme = (urlparse r).scheme := by
  have hsch : (urlparse r).scheme = (urlsplitWith r []).scheme :=
    (urlparse_fields r []).1
  have hSinv : SchemeInv (urlparse r).scheme := by
    rw [hsch]
    exact urlsplit_scheme_inv r
  have hsub := urlsplit_subsets r
  have hppsub := urlparse_path_params_subset r
  rw [normalise_url]
  try dsimp only
  rw [urlunparse]
  try dsimp only
  have hnq : (urlparse r).netloc = (urlsplitWith r []).netloc :=
    (urlparse_fields r []).2.1
  have hqq : (urlparse r).query = (urlsplitWith r []).query :=
    (urlparse_fields r []).2.2
  have hclP2 : ∀ c ∈ (urlparse r).netloc ++
      (if (urlparse r).params ≠ [] then
        rstripSlash (urlparse r).path ++ ';' :: (urlparse r).params
       else rstripSlash (urlparse r).path) ++ (urlparse r).query,
      c ∉ unsafeChars := by
    intro c hc
    rcases List.mem_append.mp hc with h1 | h1
    · rcases List.mem_append.mp h1 with h2 | h2
      · rw [hnq] at h2
        exact removeUnsafe_not_mem _ c (hsub.1 h2)
      · by_cases hpr : (urlparse r).params ≠ []
        · rw [if_pos hpr] at h2
          rcases List.mem_append.mp h2 with h3 | h3
          · exact removeUnsafe_not_mem _ c
              (hsub.2.1 (hppsub.1 ((rstripSlash_prefixOf _).subset h3)))
          rcases List.mem_cons.mp h3 with rfl | h3
          · decide
          · exact removeUnsafe_not_mem _ c (hsub.2.1 (hppsub.2 h3))
        · rw [if_neg hpr] at h2
          exact removeUnsafe_not_mem _ c
            (hsub.2.1 (hppsub.1 ((rstripSlash_prefixOf _).subset h2)))
    · rw [hqq] at h1
      exact removeUnsafe_not_mem _ c (hsub.2.2 h1)
  have hkey := urlsplit_scheme_of_unsplit (urlparse r).scheme (urlparse r).netloc
    (if (urlparse r).params ≠ [] then
       rstripSlash (urlparse r).path ++ ';' :: (urlparse r).params
     else rstripSlash (urlparse r).path)
    (urlparse r).query hSinv hsne hclP2
  rw [urlparse]
  rw [(urlparse_fields _ []).1, hkey]

/-- C6: on every element stream and base URL, the extraction loop emits
the first-occurrence deduplication of the candidate list, contains no
duplicates, and every emitted URL parses with scheme http or https. -/
theorem extract_urls_output_spec (elems : List HtmlElement) (base : Str) :
    extract_urls_list elems base =
        dedupKeepFirst [] (candidateList elems base) ∧
      (extract_urls_list elems base).Nodup ∧
      ∀ x ∈ extract_urls_list elems base,
        (urlparse x).scheme = "http".data ∨ (urlparse x).scheme = "https".data := by
  refine ⟨extract_urls_list_eq elems base, ?_, ?_⟩
  · rw [extract_urls_list_eq]
    exact (dedupKeepFirst_nodup _ []).1
  · intro x hx
    rw [extract_urls_list_eq] at hx
    have hx2 := dedupKeepFirst_subset _ [] hx
    rw [candidateList, List.mem_flatMap] at hx2
    obtain ⟨e, _, hx3⟩ := hx2
    rw [List.mem_filterMap] at hx3
    obtain ⟨v, _, hv⟩ := hx3
    rw [candOf] at hv
    by_cases h1 : v = [] ∨ v.headD ' ' = '#'
    · rw [if_pos h1] at hv
      exact Option.noConfusion hv
    · rw [if_neg h1] at hv
      by_cases h2 : (urlparse (urljoin base v)).scheme = "http".data ∨
          (urlparse (urljoin base v)).scheme = "https".data
      · rw [if_pos h2] at hv
        have hveq : x = normalise_url (urljoin base v) :=
          (Option.some_inj.mp hv).symm
        subst hveq
        have hsne : (urlparse (urljoin base v)).scheme ≠ [] := by
          rcases h2 with h3 | h3 <;> (rw [h3]; simp)
        rw [normalise_scheme _ hsne]
        exact h2
      · rw [if_neg h2] at hv
        exact Option.noConfusion hv

/-! ### The robots oracle (`urllib.robotparser` as used by `_fetch_robots`)

Percent-coding (`urllib.parse.quote` and `unquote`) is abstracted: the
definitions below are parametric in those two string transformations, and
every theorem quantifies over them. -/

structure RuleLine where
  path : Str
  allowance : Bool
deriving Repr, DecidableEq

structure RobotsEntry where
  useragents : List Str
  rulelines : List RuleLine
  delay : Option Nat
  reqRate : Option (Nat × Nat)
deriving Repr, DecidableEq

structure RobotsState where
  entries : List RobotsEntry
  defaultEntry : Option RobotsEntry
  disallowAll : Bool
  allowAll : Bool
  lastChecked : Bool
  sitemaps : List Str
deriving Repr, DecidableEq

/-- Whitespace for the `str.strip()` calls of `robotparser`. -/
def pyWhitespace (c : Char) : Bool :=
  c.isWhitespace || c == '\x0b' || c == '\x0c' ||
    c == '\x1c' || c == '\x1d' || c == '\x1e' || c == '\x85'

def pyStrip (s : Str) : Str :=
  ((s.dropWhile pyWhitespace).reverse.dropWhile pyWhitespace).reverse

/-- `str.isdigit` restricted to ASCII digits. -/
def isDigitStr (s : Str) : Bool := !s.isEmpty && s.all Char.isDigit

/-- `int()` on a digit string. -/
def parseNat (s : Str) : Nat :=
  s.foldl (fun acc c => acc * 10 + (c.toNat - 48)) 0

/-- `RuleLine.__init__`. -/
def mkRuleLine (quote : Str → Str) (path : Str) (allowance : Bool) : RuleLine :=
  let allowance := if path = [] ∧ allowance = false then true else allowance
  let path2 := urlunparse (urlparse path)
  ⟨quote path2, allowance⟩

/-- `RobotFileParser._add_entry`. -/
def addEntry (st : RobotsState) (entry : RobotsEntry) : RobotsState :=
  if "*".data ∈ entry.useragents then
    match st.defaultEntry with
    | none => { st with defaultEntry := some entry }
    | some _ => st
  else { st with entries := st.entries ++ [entry] }

def emptyEntry : RobotsEntry := ⟨[], [], none, none⟩

/-- One iteration of the `RobotFileParser.parse` line loop.  The machine
state is the parser state, the entry being built, and the 0, 1 or 2 state
counter of the source. -/
def robotsLine (unquote quote : Str → Str)
    (ms : RobotsState × RobotsEntry × Nat) (line0 : Str) :
    RobotsState × RobotsEntry × Nat :=
  let st := ms.1
  let entry := ms.2.1
  let state := ms.2.2
  let blankStep :=
    if line0 = [] then
      if state = 1 then (st, emptyEntry, 0)
      else if state = 2 then (addEntry st entry, emptyEntry, 0)
      else (st, entry, state)
    else (st, entry, state)
  let st := blankStep.1
  let entry := blankStep.2.1
  let state := blankStep.2.2
  let line1 := pyStrip (splitTail '#' line0).1
  if line1 = [] then (st, entry, state)
  else
    match splitOnFirst ':' line1 with
    | none => (st, entry, state)
    | some (k, v) =>
      let key := (pyStrip k).map Char.toLower
      let value := unquote (pyStrip v)
      if key = "user-agent".data then
        let afterAdd :=
          if state = 2 then (addEntry st entry, emptyEntry) else (st, entry)
        (afterAdd.1,
          { afterAdd.2 with useragents := afterAdd.2.useragents ++ [value] }, 1)
      else if key = "disallow".data then
        if state ≠ 0 then
          (st, { entry with
            rulelines := entry.rulelines ++ [mkRuleLine quote value false] }, 2)
        else (st, entry, state)
      else if key = "allow".data then
        if state ≠ 0 then
          (st, { entry with
            rulelines := entry.rulelines ++ [mkRuleLine quote value true] }, 2)
        else (st, entry, state)
      else if key = "crawl-delay".data then
        if state ≠ 0 then
          (st,
            (if isDigitStr (pyStrip value) then
              { entry with delay := some (parseNat (pyStrip value)) }
            else entry), 2)
        else (st, entry, state)
      else if key = "request-rate".data then
        if state ≠ 0 then
          (st,
            (match splitOnChar '/' value with
             | [n1, n2] =>
               if isDigitStr (pyStrip n1) ∧ isDigitStr (pyStrip n2) then
                 { entry with
                   reqRate := some (parseNat (pyStrip n1), parseNat (pyStrip n2)) }
               else entry
             | _ => entry), 2)
        else (st, entry, state)
      else if key = "sitemap".data then
        ({ st with sitemaps := st.sitemaps ++ [value] }, entry, state)
      else (st, entry, state)

/-- `RobotFileParser.parse` on a freshly constructed parser; `modified()`
makes `last_checked` truthy. -/
def robotsParse (unquote quote : Str → Str) (lines : List Str) : RobotsState :=
  let res := lines.foldl (robotsLine unquote quote)
    (⟨[], none, false, false, true, []⟩, emptyEntry, 0)
  if res.2.2 = 2 then addEntry res.1 res.2.1 else res.1

/-- Python substring membership `needle in hay`. -/
def strContains (hay needle : Str) : Bool :=
  (List.range (hay.length + 1)).any (fun i => needle.isPrefixOf (hay.drop i))

/-- `Entry.applies_to`. -/
def entryAppliesTo (entry : RobotsEntry) (useragent : Str) : Bool :=
  let ua := ((splitOnChar '/' useragent).headD []).map Char.toLower
  entry.useragents.any (fun agent =>
    agent == "*".data || strContains ua (agent.map Char.toLower))

/-- `RuleLine.applies_to`. -/
def ruleApplies (line : RuleLine) (filename : Str) : Bool :=
  line.path == "*".data || line.path.isPrefixOf filename

/-- `Entry.allowance`. -/
def entryAllowance (entry : RobotsEntry) (filename : Str) : Bool :=
  match entry.rulelines.find? (fun l => ruleApplies l filename) with
  | some l => l.allowance
  | none => true

/-- `RobotFileParser.can_fetch`. -/
def canFetch (unquote quote : Str → Str) (st : RobotsState)
    (useragent url : Str) : Bool :=
  if st.disallowAll then false
  else if st.allowAll then true
  else if !st.lastChecked then false
  else
    let parsedUrl := urlparse (unquote url)
    let url2 := urlunparse ⟨[], [], parsedUrl.path, parsedUrl.params,
      parsedUrl.query, parsedUrl.fragment⟩
    let url3 := quote url2
    let url4 := if url3 = [] then "/".data else url3
    match st.entries.find? (fun e => entryAppliesTo e useragent) with
    | some e => entryAllowance e url4
    | none =>
      match st.defaultEntry with
      | some e => entryAllowance e url4
      | none => true

/-- `RobotFileParser.crawl_delay`. -/
def robotsCrawlDelay (st : RobotsState) (useragent : Str) : Option Nat :=
  if !st.lastChecked then none
  else
    match st.entries.find? (fun e => entryAppliesTo e useragent) with
    | some e => e.delay
    | none =>
      match st.defaultEntry with
      | some e => e.delay
      | none => none

/-- Line breaks recognised by `str.splitlines`. -/
def isLineBreak (c : Char) : Bool :=
  c == '\n' || c == '\r' || c == '\x0b' || c == '\x0c' ||
    c == '\x1c' || c == '\x1d' || c == '\x1e' || c == '\x85' ||
    c.toNat == 0x2028 || c.toNat == 0x2029

def splitLinesGo (acc : Str) : Str → List Str
  | [] => [acc.reverse]
  | '\r' :: '\n' :: rest =>
    if rest = [] then [acc.reverse] else acc.reverse :: splitLinesGo [] rest
  | c :: rest =>
    if isLineBreak c then
      if rest = [] then [acc.reverse] else acc.reverse :: splitLinesGo [] rest
    else splitLinesGo (c :: acc) rest

/-- `str.splitlines`. -/
def splitLines (s : Str) : List Str :=
  if s = [] then [] else splitLinesGo [] s

structure HttpResponseM where
  url : Str
  status_code : Nat
  body : Str
  content_type : Str
deriving Repr, DecidableEq

/-- `CrawlerService._fetch_robots`, given the outcome of fetching the
robots URL: a `FetchError` is modelled by `Except.error`. -/
def fetch_robots (unquote quote : Str → Str)
    (outcome : Except Unit HttpResponseM) : RobotsState :=
  match outcome with
  | .ok resp =>
    if resp.status_code = 200 then
      robotsParse unquote quote (splitLines resp.body)
    else robotsParse unquote quote []
  | .error _ => robotsParse unquote quote []

/-- C9: a failed or non-200 robots.txt fetch yields the allow-all oracle:
the resulting parser equals the empty parse, and `can_fetch` answers true
for every agent and URL.  The failure is absorbed: `fetch_robots` is a
total function into parser states and returns no error. -/
theorem robots_failure_allow_all (unquote quote : Str → Str)
    (outcome : Except Unit HttpResponseM)
    (h : (∃ e, outcome = .error e) ∨
      ∀ r, outcome = .ok r → r.status_code ≠ 200) :
    fetch_robots unquote quote outcome = robotsParse unquote quote [] ∧
      ∀ agent url,
        canFetch unquote quote (fetch_robots unquote quote outcome) agent url =
          true := by
  have hempty : robotsParse unquote quote [] =
      ⟨[], none, false, false, true, []⟩ := rfl
  have hmain : fetch_robots unquote quote outcome = robotsParse unquote quote [] := by
    match outcome with
    | .error e => rfl
    | .ok r =>
      rcases h with ⟨e, he⟩ | h2
      · exact Except.noConfusion he
      · have := h2 r rfl
        rw [fetch_robots, if_neg this]
  refine ⟨hmain, ?_⟩
  intro agent url
  rw [hmain, hempty]
  rfl

/-- C9 witness at a concrete failed fetch. -/
theorem robots_failure_allow_all_witness :
    ((∃ e, (Except.error () : Except Unit HttpResponseM) = .error e) ∨
      ∀ r, (Except.error () : Except Unit HttpResponseM) = .ok r →
        r.status_code ≠ 200) ∧
    (fetch_robots id id (Except.error ()) = robotsParse id id [] ∧
      ∀ agent url, canFetch id id (fetch_robots id id (Except.error ())) agent url = true) :=
  ⟨Or.inl ⟨(), rfl⟩, robots_failure_allow_all id id (Except.error ()) (Or.inl ⟨(), rfl⟩)⟩

/-! ### The crawl engine (`CrawlerService.crawl`)

The worker loop of `crawl` is modelled as a small-step system over an
abstract URL type.  Workers suspend only at the fetch `await`; everything
between `get_nowait` and the fetch call, and everything after the fetch
returns, runs without interleaving, so a run is a sequence of two kinds of
atomic actions: dequeuing a work item into an in-flight fetch (with the
`max_pages` pre-check of line 104) and completing an in-flight fetch (the
body from line 119 down).  The environment packages the constructor
options of `CrawlerService.__init__` (which accepts exactly
`max_concurrency`, `user_agent`, `rate_limiter`, `max_depth` and
`max_pages` — there is no `max_visited` option), the robots oracle, and a
fetch oracle giving each URL its response. -/

structure FetchResult (Url : Type) where
  status : Nat
  isHtml : Bool
  finalUrl : Url
  links : List Url
deriving Repr, DecidableEq

structure CrawlEnv (Url : Type) where
  normaliseU : Url → Url
  sameDomain : Url → Url → Bool
  robotsAllowed : Url → Bool
  crawlDelay : Option Nat
  hasRateLimiter : Bool
  maxDepth : Option Nat
  maxPages : Option Nat
  fetch : Url → Except Unit (FetchResult Url)
  robotsUrl : Url

inductive CrawlEvent (Url : Type) where
  | robotsFetch (u : Url)
  | setRate (d : Nat)
  | pageFetch (u : Url)
deriving Repr, DecidableEq

structure WorkItem (Url : Type) where
  url : Url
  parent : Option Url
  depth : Nat
deriving Repr, DecidableEq

structure EngineState (Url : Type) where
  queue : List (WorkItem Url)
  inflight : List (WorkItem Url)
  visited : List Url
  pagesCrawled : Nat
  results : List (Url × List Url)
  events : List (CrawlEvent Url)
deriving Repr, DecidableEq

/-- `set.add`. -/
def insertVisited {Url : Type} [DecidableEq Url] (v : List Url) (u : Url) :
    List Url :=
  if u ∈ v then v else v ++ [u]

/-- The rate-limiter configuration step of `crawl` (lines 73 to 76):
`set_rate(1/d)` happens exactly when a limiter is installed and the robots
oracle reports a positive crawl delay `d`. -/
def setRateEvents {Url : Type} (env : CrawlEnv Url) : List (CrawlEvent Url) :=
  match env.hasRateLimiter, env.crawlDelay with
  | true, some d => if 0 < d then [CrawlEvent.setRate d] else []
  | _, _ => []

/-- Events of the startup sequence: the robots.txt fetch, then the
optional `set_rate` call. -/
def initEvents {Url : Type} (env : CrawlEnv Url) : List (CrawlEvent Url) :=
  CrawlEvent.robotsFetch env.robotsUrl :: setRateEvents env

/-- The state after the startup of `crawl` (lines 71 to 88): robots
fetched, limiter configured, normalised seed added to `visited` and put on
the queue.  No validation of the seed occurs. -/
def initState {Url : Type} [DecidableEq Url] (env : CrawlEnv Url)
    (seed : Url) : EngineState Url :=
  { queue := [⟨env.normaliseU seed, none, 0⟩], inflight := [],
    visited := [env.normaliseU seed], pagesCrawled := 0, results := [],
    events := initEvents env }

/-- `self._max_pages is not None and pages_crawled >= self._max_pages`. -/
def capReached {Url : Type} (env : CrawlEnv Url) (pages : Nat) : Bool :=
  match env.maxPages with
  | some k => decide (k ≤ pages)
  | none => false

/-- The link loop of lines 149 to 160: each link passing the
not-visited, same-domain, robots and depth gates is added to `visited`
and enqueued. -/
def enqueueLinks {Url : Type} [DecidableEq Url] (env : CrawlEnv Url)
    (start finalU : Url) (depth : Nat) :
    List Url → List Url → List (WorkItem Url) → List Url × List (WorkItem Url)
  | [], v, q => (v, q)
  | link :: rest, v, q =>
    if !v.contains link && env.sameDomain link start && env.robotsAllowed link &&
        (match env.maxDepth with
         | some md => decide (depth + 1 ≤ md)
         | none => true) then
      enqueueLinks env start finalU depth rest (v ++ [link])
        (q ++ [⟨link, some finalU, depth + 1⟩])
    else enqueueLinks env start finalU depth rest v q

/-- Lines 131 to 160, after a 200 text/html response: record the
normalised final URL as visited, and if it is on the start domain emit a
result, bump the page counter, and (below the cap) enqueue the links. -/
def completeHtml {Url : Type} [DecidableEq Url] (env : CrawlEnv Url)
    (start : Url) (s : EngineState Url) (item : WorkItem Url)
    (finalU : Url) (links : List Url) : EngineState Url :=
  if env.sameDomain finalU start = false then
    { s with visited := insertVisited s.visited finalU }
  else if capReached env (s.pagesCrawled + 1) then
    { s with visited := insertVisited s.visited finalU,
             pagesCrawled := s.pagesCrawled + 1,
             results := s.results ++ [(finalU, links)] }
  else
    { s with
      visited := (enqueueLinks env start finalU item.depth links
        (insertVisited s.visited finalU) s.queue).1,
      queue := (enqueueLinks env start finalU item.depth links
        (insertVisited s.visited finalU) s.queue).2,
      pagesCrawled := s.pagesCrawled + 1,
      results := s.results ++ [(finalU, links)] }

/-- Lines 109 to 160: what one worker does once its fetch resolves.
`FetchError`, a non-200 status and a non-HTML content type each discard
the item. -/
def completeStep {Url : Type} [DecidableEq Url] (env : CrawlEnv Url)
    (start : Url) (s : EngineState Url) (item : WorkItem Url) :
    EngineState Url :=
  match env.fetch item.url with
  | .error _ => s
  | .ok r =>
    if r.status ≠ 200 then s
    else if r.isHtml = false then s
    else completeHtml env start s item (env.normaliseU r.finalUrl) r.links

inductive CrawlAction where
  | dequeue
  | finish (i : Nat)
deriving Repr, DecidableEq

/-- One atomic step of a worker.  `dequeue` runs lines 94 to 109 of one
worker: pop a work item, drop it if the `max_pages` pre-check fires,
otherwise start its fetch (the item goes in flight and the fetch is
issued).  `finish i` resumes in-flight worker `i` at the fetch return. -/
def runAction {Url : Type} [DecidableEq Url] (env : CrawlEnv Url)
    (seed : Url) (a : CrawlAction) (s : EngineState Url) :
    Option (EngineState Url) :=
  match a with
  | .dequeue =>
    match s.queue with
    | [] => none
    | item :: rest =>
      if capReached env s.pagesCrawled then some { s with queue := rest }
      else
        some { s with
          queue := rest
          inflight := s.inflight ++ [item]
          events := s.events ++ [CrawlEvent.pageFetch item.url] }
  | .finish i =>
    match s.inflight.get? i with
    | none => none
    | some item =>
      some (completeStep env (env.normaliseU seed)
        { s with inflight := s.inflight.eraseIdx i } item)

def runTrace {Url : Type} [DecidableEq Url] (env : CrawlEnv Url)
    (seed : Url) : List CrawlAction → EngineState Url → Option (EngineState Url)
  | [], s => some s
  | a :: acts, s =>
    match runAction env seed a s with
    | none => none
    | some s' => runTrace env seed acts s'

inductive Reachable {Url : Type} [DecidableEq Url] (env : CrawlEnv Url)
    (seed : Url) : EngineState Url → Prop where
  | init : Reachable env seed (initState env seed)
  | step (s : EngineState Url) (a : CrawlAction) (s' : EngineState Url) :
      Reachable env seed s → runAction env seed a s = some s' →
      Reachable env seed s'

def pageOf {Url : Type} : CrawlEvent Url → Option Url
  | .pageFetch u => some u
  | _ => none

/-- The URLs whose page fetch has been issued, in order. -/
def fetchedUrls {Url : Type} (s : EngineState Url) : List Url :=
  s.events.filterMap pageOf

/-- The queue/visited discipline of the worker: every queued URL is
already visited, and no URL is both queued and fetched, or fetched
twice. -/
def crawlInv {Url : Type} (s : EngineState Url) : Prop :=
  (s.queue.map WorkItem.url ++ fetchedUrls s).Nodup ∧
    ∀ u ∈ s.queue.map WorkItem.url ++ fetchedUrls s, u ∈ s.visited

lemma filterMap_pageOf_setRateEvents {Url : Type} (env : CrawlEnv Url) :
    (setRateEvents env).filterMap pageOf = [] := by
  unfold setRateEvents
  rcases env.hasRateLimiter with _ | _ <;> rcases env.crawlDelay with _ | d
  · rfl
  · rfl
  · rfl
  · dsimp only
    split <;> rfl

lemma fetchedUrls_initState {Url : Type} [DecidableEq Url]
    (env : CrawlEnv Url) (seed : Url) :
    fetchedUrls (initState env seed) = [] := by
  show (initEvents env).filterMap pageOf = []
  unfold initEvents
  rw [List.filterMap_cons]
  exact filterMap_pageOf_setRateEvents env

lemma insertVisited_subset {Url : Type} [DecidableEq Url]
    (v : List Url) (u : Url) : v ⊆ insertVisited v u := by
  unfold insertVisited
  split
  · exact fun x hx => hx
  · exact fun x hx => List.mem_append_left _ hx

lemma enqueueLinks_inv {Url : Type} [DecidableEq Url] (env : CrawlEnv Url)
    (start finalU : Url) (depth : Nat) (fetched : List Url) :
    ∀ (links v : List Url) (q : List (WorkItem Url)),
      (q.map WorkItem.url ++ fetched).Nodup →
      (∀ u ∈ q.map WorkItem.url ++ fetched, u ∈ v) →
      ((enqueueLinks env start finalU depth links v q).2.map WorkItem.url ++
          fetched).Nodup ∧
        ∀ u ∈ (enqueueLinks env start finalU depth links v q).2.map
            WorkItem.url ++ fetched,
          u ∈ (enqueueLinks env start finalU depth links v q).1 := by
  intro links
  induction links with
  | nil => intro v q h1 h2; exact ⟨h1, h2⟩
  | cons link rest ih =>
    intro v q h1 h2
    simp only [enqueueLinks]
    split
    · rename_i hgate
      have hnotv : link ∉ v := by
        intro hmem
        have hc : v.contains link = false := by
          simp only [Bool.and_eq_true, Bool.not_eq_true'] at hgate
          exact hgate.1.1.1
        have hc2 : v.contains link = true := by
          rw [List.contains_eq_any_beq]
          exact List.any_eq_true.mpr ⟨link, hmem, by simp⟩
        rw [hc2] at hc
        exact Bool.noConfusion hc
      have hfresh : link ∉ q.map WorkItem.url ++ fetched := fun hmem =>
        hnotv (h2 link hmem)
      apply ih
      · have hperm :
            ((q ++ [(⟨link, some finalU, depth + 1⟩ : WorkItem Url)]).map WorkItem.url ++
              fetched).Perm (link :: (q.map WorkItem.url ++ fetched)) := by
          simp only [List.map_append, List.map_cons, List.map_nil,
            List.append_assoc, List.singleton_append]
          exact List.perm_middle
        exact hperm.symm.nodup (List.nodup_cons.mpr ⟨hfresh, h1⟩)
      · intro u hu
        rw [List.map_append] at hu
        rcases List.mem_append.mp hu with hl | hr
        · rcases List.mem_append.mp hl with hq | hone
          · exact List.mem_append_left _ (h2 u (List.mem_append_left _ hq))
          · simp only [List.map_cons, List.map_nil, List.mem_singleton] at hone
            subst hone
            exact List.mem_append_right _ (List.mem_singleton.mpr rfl)
        · exact List.mem_append_left _ (h2 u (List.mem_append_right _ hr))
    · exact ih v q h1 h2

lemma completeHtml_preserves {Url : Type} [DecidableEq Url]
    (env : CrawlEnv Url) (start : Url) (s : EngineState Url)
    (item : WorkItem Url) (finalU : Url) (links : List Url)
    (h : crawlInv s) : crawlInv (completeHtml env start s item finalU links) := by
  obtain ⟨h1, h2⟩ := h
  unfold completeHtml
  split
  · exact ⟨h1, fun u hu => insertVisited_subset _ _ (h2 u hu)⟩
  · split
    · exact ⟨h1, fun u hu => insertVisited_subset _ _ (h2 u hu)⟩
    · have := enqueueLinks_inv env start finalU item.depth (fetchedUrls s)
        links (insertVisited s.visited finalU) s.queue h1
        (fun u hu => insertVisited_subset _ _ (h2 u hu))
      exact ⟨this.1, this.2⟩

lemma completeStep_preserves {Url : Type} [DecidableEq Url]
    (env : CrawlEnv Url) (start : Url) (s : EngineState Url)
    (item : WorkItem Url) (h : crawlInv s) :
    crawlInv (completeStep env start s item) := by
  unfold completeStep
  rcases env.fetch item.url with e | r
  · exact h
  · dsimp only
    split
    · exact h
    · split
      · exact h
      · exact completeHtml_preserves env start s item _ _ h

lemma crawlInv_eraseInflight {Url : Type} (s : EngineState Url) (i : Nat)
    (h : crawlInv s) : crawlInv { s with inflight := s.inflight.eraseIdx i } :=
  h

lemma runAction_preserves {Url : Type} [DecidableEq Url]
    (env : CrawlEnv Url) (seed : Url) (a : CrawlAction)
    (s s' : EngineState Url) (h : runAction env seed a s = some s')
    (hinv : crawlInv s) : crawlInv s' := by
  obtain ⟨h1, h2⟩ := hinv
  cases a with
  | dequeue =>
    unfold runAction at h
    rcases hq : s.queue with _ | ⟨item, rest⟩
    · rw [hq] at h; exact Option.noConfusion h
    · rw [hq] at h
      rw [hq, List.map_cons] at h1 h2
      dsimp only at h
      split at h
      · cases h
        refine ⟨h1.sublist ?_, fun u hu => h2 u (List.mem_cons_of_mem _ hu)⟩
        exact (List.sublist_cons_self _ _).append (List.Sublist.refl _)
      · cases h
        have hfe : fetchedUrls { s with
            queue := rest
            inflight := s.inflight ++ [item]
            events := s.events ++ [CrawlEvent.pageFetch item.url] } =
            fetchedUrls s ++ [item.url] := by
          show (s.events ++ [CrawlEvent.pageFetch item.url]).filterMap pageOf
            = fetchedUrls s ++ [item.url]
          rw [List.filterMap_append]
          rfl
        constructor
        · rw [hfe]
          have hperm : (rest.map WorkItem.url ++ (fetchedUrls s ++ [item.url])).Perm
              (item.url :: (rest.map WorkItem.url ++ fetchedUrls s)) := by
            rw [← List.append_assoc]
            exact List.perm_append_singleton _ _
          exact hperm.symm.nodup h1
        · intro u hu
          rw [hfe] at hu
          apply h2
          rcases List.mem_append.mp hu with hl | hr
          · exact List.mem_cons_of_mem _ (List.mem_append_left _ hl)
          · rcases List.mem_append.mp hr with hf | hone
            · exact List.mem_cons_of_mem _ (List.mem_append_right _ hf)
            · rw [List.mem_singleton] at hone
              subst hone
              exact List.mem_cons_self _ _
  | finish i =>
    unfold runAction at h
    dsimp only at h
    rcases hg : s.inflight.get? i with _ | item
    · rw [hg] at h; exact Option.noConfusion h
    · rw [hg] at h
      dsimp only at h
      cases h
      exact completeStep_preserves env _ _ item
        (crawlInv_eraseInflight s i ⟨h1, h2⟩)

lemma reachable_crawlInv {Url : Type} [DecidableEq Url]
    (env : CrawlEnv Url) (seed : Url) (s : EngineState Url)
    (h : Reachable env seed s) : crawlInv s := by
  induction h with
  | init =>
    constructor
    · rw [fetchedUrls_initState, List.append_nil]
      exact List.nodup_singleton _
    · intro u hu
      rw [fetchedUrls_initState, List.append_nil] at hu
      exact hu
  | step s a s' _ hstep ih => exact runAction_preserves env seed a s s' hstep ih

/-- C2: in every reachable state of the crawl engine, no URL has had its
page fetch issued twice (the fetch log is duplicate-free), every URL on
the queue is already in `visited`, and every URL ever fetched is in
`visited`: `visited` is populated at or before enqueue time and gates
every enqueue, so no URL is dequeued and fetched twice. -/
theorem crawl_fetch_once {Url : Type} [DecidableEq Url]
    (env : CrawlEnv Url) (seed : Url) (s : EngineState Url)
    (h : Reachable env seed s) :
    (fetchedUrls s).Nodup ∧
      (∀ u ∈ s.queue.map WorkItem.url, u ∈ s.visited) ∧
      ∀ u ∈ fetchedUrls s, u ∈ s.visited := by
  obtain ⟨h1, h2⟩ := reachable_crawlInv env seed s h
  exact ⟨h1.of_append_right,
    fun u hu => h2 u (List.mem_append_left _ hu),
    fun u hu => h2 u (List.mem_append_right _ hu)⟩

def envC2 : CrawlEnv Nat :=
  { normaliseU := id, sameDomain := fun _ _ => true,
    robotsAllowed := fun _ => true, crawlDelay := none,
    hasRateLimiter := false, maxDepth := none, maxPages := none,
    fetch := fun _ => Except.error (), robotsUrl := 99 }

/-- C2 witness at the initial state of a concrete engine. -/
theorem crawl_fetch_once_witness :
    Reachable envC2 0 (initState envC2 0) ∧
      ((fetchedUrls (initState envC2 0)).Nodup ∧
        (∀ u ∈ (initState envC2 0).queue.map WorkItem.url,
          u ∈ (initState envC2 0).visited) ∧
        ∀ u ∈ fetchedUrls (initState envC2 0),
          u ∈ (initState envC2 0).visited) :=
  ⟨Reachable.init, crawl_fetch_once envC2 0 (initState envC2 0) Reachable.init⟩

def isSetRate {Url : Type} : CrawlEvent Url → Bool
  | .setRate _ => true
  | _ => false

def isPageFetch {Url : Type} : CrawlEvent Url → Bool
  | .pageFetch _ => true
  | _ => false

/-- Every event after the startup prefix is a page fetch. -/
def eventsInv {Url : Type} (env : CrawlEnv Url) (s : EngineState Url) : Prop :=
  ∃ t, s.events = initEvents env ++ t ∧ ∀ e ∈ t, isPageFetch e = true

lemma completeHtml_events {Url : Type} [DecidableEq Url]
    (env : CrawlEnv Url) (start : Url) (s : EngineState Url)
    (item : WorkItem Url) (finalU : Url) (links : List Url) :
    (completeHtml env start s item finalU links).events = s.events := by
  unfold completeHtml
  split
  · rfl
  · split <;> rfl

lemma completeStep_events {Url : Type} [DecidableEq Url]
    (env : CrawlEnv Url) (start : Url) (s : EngineState Url)
    (item : WorkItem Url) :
    (completeStep env start s item).events = s.events := by
  unfold completeStep
  rcases env.fetch item.url with e | r
  · rfl
  · dsimp only
    split
    · rfl
    · split
      · rfl
      · exact completeHtml_events env start s item _ _

lemma runAction_eventsInv {Url : Type} [DecidableEq Url]
    (env : CrawlEnv Url) (seed : Url) (a : CrawlAction)
    (s s' : EngineState Url) (h : runAction env seed a s = some s')
    (hinv : eventsInv env s) : eventsInv env s' := by
  obtain ⟨t, ht, hall⟩ := hinv
  cases a with
  | dequeue =>
    unfold runAction at h
    rcases hq : s.queue with _ | ⟨item, rest⟩
    · rw [hq] at h; exact Option.noConfusion h
    · rw [hq] at h
      dsimp only at h
      split at h
      · cases h; exact ⟨t, ht, hall⟩
      · cases h
        refine ⟨t ++ [CrawlEvent.pageFetch item.url], ?_, ?_⟩
        · show s.events ++ [CrawlEvent.pageFetch item.url] = _
          rw [ht, List.append_assoc]
        · intro e he
          rcases List.mem_append.mp he with hl | hr
          · exact hall e hl
          · rw [List.mem_singleton] at hr
            subst hr
            rfl
  | finish i =>
    unfold runAction at h
    dsimp only at h
    rcases hg : s.inflight.get? i with _ | item
    · rw [hg] at h; exact Option.noConfusion h
    · rw [hg] at h
      dsimp only at h
      cases h
      refine ⟨t, ?_, hall⟩
      rw [completeStep_events]
      exact ht

lemma reachable_eventsInv {Url : Type} [DecidableEq Url]
    (env : CrawlEnv Url) (seed : Url) (s : EngineState Url)
    (h : Reachable env seed s) : eventsInv env s := by
  induction h with
  | init => exact ⟨[], (List.append_nil _).symm, fun e he => absurd he (List.not_mem_nil e)⟩
  | step s a s' _ hstep ih => exact runAction_eventsInv env seed a s s' hstep ih

lemma filter_isSetRate_setRateEvents {Url : Type} (env : CrawlEnv Url) :
    (setRateEvents env).filter isSetRate = setRateEvents env := by
  unfold setRateEvents
  rcases env.hasRateLimiter with _ | _ <;> rcases env.crawlDelay with _ | d
  · rfl
  · rfl
  · rfl
  · dsimp only
    split <;> rfl

/-- C8: in every reachable state, the event log starts with the startup
prefix (robots.txt fetch first, then the optional `set_rate` call) and
everything after it is a page fetch.  Consequently `set_rate(1/d)` is
called exactly once when a rate limiter is installed and the robots
oracle reports a crawl delay `d > 0` — after the robots fetch and before
any page fetch — and never called otherwise. -/
theorem set_rate_policy {Url : Type} [DecidableEq Url]
    (env : CrawlEnv Url) (seed : Url) (s : EngineState Url)
    (h : Reachable env seed s) :
    s.events.filter isSetRate = setRateEvents env ∧
      s.events.head? = some (CrawlEvent.robotsFetch env.robotsUrl) ∧
      s.events.take (initEvents env).length = initEvents env ∧
      ∀ e ∈ s.events.drop (initEvents env).length, isPageFetch e = true := by
  obtain ⟨t, ht, hall⟩ := reachable_eventsInv env seed s h
  have hfil : t.filter isSetRate = [] := by
    rw [List.filter_eq_nil_iff]
    intro e he
    have := hall e he
    cases e with
    | robotsFetch u => simp [isSetRate]
    | setRate d => exact absurd this (by simp [isPageFetch])
    | pageFetch u => simp [isSetRate]
  refine ⟨?_, ?_, ?_, ?_⟩
  · rw [ht, List.filter_append, hfil, List.append_nil]
    show (CrawlEvent.robotsFetch env.robotsUrl :: setRateEvents env).filter
      isSetRate = setRateEvents env
    rw [List.filter_cons_of_neg (by simp [isSetRate])]
    exact filter_isSetRate_setRateEvents env
  · rw [ht]
    rfl
  · rw [ht, List.take_left]
  · rw [ht, List.drop_left]
    exact hall

def envC8 : CrawlEnv Nat :=
  { normaliseU := id, sameDomain := fun _ _ => true,
    robotsAllowed := fun _ => true, crawlDelay := some 2,
    hasRateLimiter := true, maxDepth := none, maxPages := none,
    fetch := fun _ => Except.error (), robotsUrl := 99 }

/-- C8 witness at the initial state of a concrete engine with a rate
limiter and a crawl delay of 2. -/
theorem set_rate_policy_witness :
    Reachable envC8 0 (initState envC8 0) ∧
      ((initState envC8 0).events.filter isSetRate = setRateEvents envC8 ∧
        (initState envC8 0).events.head? =
          some (CrawlEvent.robotsFetch envC8.robotsUrl) ∧
        (initState envC8 0).events.take (initEvents envC8).length =
          initEvents envC8 ∧
        ∀ e ∈ (initState envC8 0).events.drop (initEvents envC8).length,
          isPageFetch e = true) :=
  ⟨Reachable.init, set_rate_policy envC8 0 (initState envC8 0) Reachable.init⟩

lemma reachable_of_runTrace {Url : Type} [DecidableEq Url]
    (env : CrawlEnv Url) (seed : Url) :
    ∀ (acts : List CrawlAction) (s s' : EngineState Url),
      runTrace env seed acts s = some s' → Reachable env seed s →
      Reachable env seed s'
  | [], s, s', h, hr => by
    rw [runTrace] at h
    cases h
    exact hr
  | a :: acts, s, s', h, hr => by
    rw [runTrace] at h
    rcases ha : runAction env seed a s with _ | s1
    · rw [ha] at h; exact Option.noConfusion h
    · rw [ha] at h
      dsimp only at h
      exact reachable_of_runTrace env seed acts s1 s' h
        (Reachable.step s a s1 hr ha)

def envC1 : CrawlEnv Nat :=
  { normaliseU := id, sameDomain := fun _ _ => true,
    robotsAllowed := fun _ => true, crawlDelay := none,
    hasRateLimiter := false, maxDepth := none, maxPages := some 2,
    fetch := fun u =>
      Except.ok ⟨200, true, u, if u = 0 then [1, 2] else []⟩,
    robotsUrl := 99 }

def traceC1 : List CrawlAction :=
  [CrawlAction.dequeue, CrawlAction.finish 0, CrawlAction.dequeue,
    CrawlAction.dequeue, CrawlAction.finish 0, CrawlAction.finish 0]

/-- C1: `max_pages` bounds only the pre-fetch check, which workers pass
before any of them increments `pages_crawled`; with two in-flight workers
and `max_pages = 2` a reachable run emits three results.  The trace is
the scheduling the repository test
`test_max_pages_not_exceeded_under_concurrency` forces on a larger
scale: the seed page is crawled, its two links are both dequeued while
`pages_crawled = 1`, and each completion emits a result. -/
theorem max_pages_exceeded :
    ∃ s, runTrace envC1 0 traceC1 (initState envC1 0) = some s ∧
      Reachable envC1 0 s ∧ envC1.maxPages = some 2 ∧
      s.results.length = 3 := by
  rcases hrun : runTrace envC1 0 traceC1 (initState envC1 0) with _ | s
  · exact absurd hrun (by decide)
  · have hlen : (runTrace envC1 0 traceC1 (initState envC1 0)).map
        (fun st => st.results.length) = some 3 := by decide
    rw [hrun, Option.map_some'] at hlen
    exact ⟨s, rfl, reachable_of_runTrace envC1 0 _ _ _ hrun Reachable.init,
      rfl, Option.some.inj hlen⟩

def envC3 : CrawlEnv Nat :=
  { normaliseU := id, sameDomain := fun _ _ => true,
    robotsAllowed := fun _ => true, crawlDelay := none,
    hasRateLimiter := false, maxDepth := none, maxPages := none,
    fetch := fun u =>
      Except.ok ⟨200, true, u, if u = 0 then [1, 2, 3] else []⟩,
    robotsUrl := 99 }

def traceC3 : List CrawlAction := [CrawlAction.dequeue, CrawlAction.finish 0]

/-- C3: `CrawlerService.__init__` accepts no `max_visited` option (the
`CrawlEnv` record carries every constructor option it has), and nothing
bounds the visited set: crawling one page with three links grows
`visited` past a purported bound of 2. -/
theorem visited_unbounded :
    ∃ s, runTrace envC3 0 traceC3 (initState envC3 0) = some s ∧
      Reachable envC3 0 s ∧ 2 < s.visited.length := by
  rcases hrun : runTrace envC3 0 traceC3 (initState envC3 0) with _ | s
  · exact absurd hrun (by decide)
  · have hlen : (runTrace envC3 0 traceC3 (initState envC3 0)).map
        (fun st => decide (2 < st.visited.length)) = some true := by decide
    rw [hrun, Option.map_some'] at hlen
    exact ⟨s, rfl, reachable_of_runTrace envC3 0 _ _ _ hrun Reachable.init,
      of_decide_eq_true (Option.some.inj hlen)⟩

/-- `f"{parsed.scheme}://{parsed.netloc}/robots.txt"` of
`_fetch_robots`. -/
def robotsUrlOf (u : Str) : Str :=
  (urlparse u).scheme ++ "://".data ++ (urlparse u).netloc ++
    "/robots.txt".data

/-- The engine environment for a crawl over concrete URL strings. -/
def envOf (seed : Str) : CrawlEnv Str :=
  { normaliseU := normalise_url,
    sameDomain := fun a b => (urlparse a).netloc == (urlparse b).netloc,
    robotsAllowed := fun _ => true, crawlDelay := none,
    hasRateLimiter := false, maxDepth := none, maxPages := none,
    fetch := fun _ => Except.error (), robotsUrl := robotsUrlOf seed }

/-- C4 counterexample: for the seed `ftp://host/a` — whose scheme is
neither `http` nor `https` — `crawl` still issues the robots.txt fetch
and enqueues the seed instead of failing before the crawl starts. -/
theorem crawl_no_seed_validation_cex :
    (urlparse "ftp://host/a".data).scheme ≠ "http".data ∧
      (urlparse "ftp://host/a".data).scheme ≠ "https".data ∧
      (initState (envOf "ftp://host/a".data) "ftp://host/a".data).events =
        [CrawlEvent.robotsFetch "ftp://host/robots.txt".data] ∧
      (initState (envOf "ftp://host/a".data) "ftp://host/a".data).queue =
        [⟨"ftp://host/a".data, none, 0⟩] := by
  refine ⟨by decide, by decide, ?_, ?_⟩ <;> decide

/-- C4 amended: `crawl` validates nothing about the seed.  For every
seed string the startup fetches `robots.txt` of the seed host and puts
the normalised seed on the queue; no scheme or host check occurs (only
the CLI entry point validates URLs). -/
theorem crawl_no_seed_validation (seed : Str) :
    (initState (envOf seed) seed).events =
      [CrawlEvent.robotsFetch (robotsUrlOf seed)] ∧
      (initState (envOf seed) seed).queue =
        [⟨normalise_url seed, none, 0⟩] :=
  ⟨rfl, rfl⟩

/-! ### The HTTP client retry loop (`HttpxClient.fetch`)

`_do_fetch` is abstracted as an oracle from the attempt number to either
a response or a `FetchError` (errors carry a `Nat` identity so that
"the exception of the last attempt" is expressible).  `httpxFetch`
returns the result together with the number of attempts made. -/

inductive ClientError where
  | valueError
  | fetchError (e : Nat)
deriving Repr, DecidableEq

/-- The `for attempt in range(max_retries + 1)` loop, started at attempt
number `a` with `n` iterations left; returns the result and the number of
attempts made. -/
def runAttempts (doFetch : Nat → Except Nat HttpResponseM) :
    Nat → Nat → Except Nat HttpResponseM × Nat
  | _, 0 => (Except.error 0, 0)
  | a, n + 1 =>
    match doFetch a with
    | .ok r => (.ok r, 1)
    | .error e =>
      if n = 0 then (.error e, 1)
      else
        let res := runAttempts doFetch (a + 1) n
        (res.1, res.2 + 1)

/-- `HttpxClient.fetch`: empty URL → `ValueError` with no attempt;
otherwise up to `max_retries + 1` calls of `_do_fetch`, re-raising the
last `FetchError` if all fail. -/
def httpxFetch (doFetch : Nat → Except Nat HttpResponseM)
    (maxRetries : Nat) (url : Str) : Except ClientError HttpResponseM × Nat :=
  if url = [] then (Except.error ClientError.valueError, 0)
  else
    match runAttempts doFetch 0 (maxRetries + 1) with
    | (.ok r, k) => (.ok r, k)
    | (.error e, k) => (.error (.fetchError e), k)

lemma runAttempts_le (doFetch : Nat → Except Nat HttpResponseM) :
    ∀ (n a : Nat), (runAttempts doFetch a n).2 ≤ n := by
  intro n
  induction n with
  | zero => intro a; rw [runAttempts]
  | succ n ih =>
    intro a
    rw [runAttempts]
    rcases doFetch a with e | r
    · dsimp only
      by_cases hn : n = 0
      · rw [if_pos hn]; omega
      · rw [if_neg hn]
        dsimp only
        have := ih (a + 1)
        omega
    · dsimp only; omega

lemma runAttempts_ok (doFetch : Nat → Except Nat HttpResponseM) :
    ∀ (n a : Nat) (r : HttpResponseM) (k : Nat),
      runAttempts doFetch a n = (Except.ok r, k) →
      ∃ j, k = j + 1 ∧ doFetch (a + j) = Except.ok r ∧
        ∀ i, i < j → ∃ e, doFetch (a + i) = Except.error e := by
  intro n
  induction n with
  | zero =>
    intro a r k h
    rw [runAttempts] at h
    simp at h
  | succ n ih =>
    intro a r k h
    rw [runAttempts] at h
    rcases hd : doFetch a with e | r2
    · rw [hd] at h
      dsimp only at h
      by_cases hn : n = 0
      · rw [if_pos hn] at h; simp at h
      · rw [if_neg hn] at h
        injection h with h1 h2
        obtain ⟨j, hj, hok, herr⟩ := ih (a + 1) r
          (runAttempts doFetch (a + 1) n).2 (by
            rcases hrec : runAttempts doFetch (a + 1) n with ⟨res, k2⟩
            rw [hrec] at h1
            dsimp only at h1 ⊢
            rw [h1])
        refine ⟨j + 1, by omega, ?_, ?_⟩
        · rw [show a + (j + 1) = a + 1 + j by omega]
          exact hok
        · intro i hi
          cases i with
          | zero => exact ⟨e, by rw [Nat.add_zero]; exact hd⟩
          | succ i' =>
            obtain ⟨e2, he2⟩ := herr i' (by omega)
            exact ⟨e2, by rw [show a + (i' + 1) = a + 1 + i' by omega]; exact he2⟩
    · rw [hd] at h
      dsimp only at h
      injection h with h1 h2
      injection h1 with h1
      subst h1
      refine ⟨0, by omega, by rw [Nat.add_zero]; exact hd, ?_⟩
      intro i hi
      exact absurd hi (Nat.not_lt_zero i)

lemma runAttempts_err (doFetch : Nat → Except Nat HttpResponseM) :
    ∀ (n a : Nat) (e : Nat) (k : Nat), 0 < n →
      runAttempts doFetch a n = (Except.error e, k) →
      k = n ∧ doFetch (a + n - 1) = Except.error e ∧
        ∀ i, i < n → ∃ e2, doFetch (a + i) = Except.error e2 := by
  intro n
  induction n with
  | zero => intro a e k h0; omega
  | succ n ih =>
    intro a e k _ h
    rw [runAttempts] at h
    rcases hd : doFetch a with e1 | r
    · rw [hd] at h
      dsimp only at h
      by_cases hn : n = 0
      · rw [if_pos hn] at h
        injection h with h1 h2
        injection h1 with h1
        subst h1
        subst hn
        refine ⟨by omega, by simpa using hd, ?_⟩
        intro i hi
        have : i = 0 := by omega
        subst this
        exact ⟨e1, by simpa using hd⟩
      · rw [if_neg hn] at h
        injection h with h1 h2
        rcases hrec : runAttempts doFetch (a + 1) n with ⟨res, k2⟩
        rw [hrec] at h1 h2
        dsimp only at h1 h2
        obtain ⟨hk, hlast, hall⟩ := ih (a + 1) e k2 (by omega) (by rw [hrec, h1])
        refine ⟨by omega, ?_, ?_⟩
        · rw [show a + (n + 1) - 1 = a + 1 + n - 1 by omega]
          exact hlast
        · intro i hi
          cases i with
          | zero => exact ⟨e1, by rw [Nat.add_zero]; exact hd⟩
          | succ i' =>
            obtain ⟨e2, he2⟩ := hall i' (by omega)
            exact ⟨e2, by rw [show a + (i' + 1) = a + 1 + i' by omega]; exact he2⟩
    · rw [hd] at h
      dsimp only at h
      simp at h

/-- C10: for a non-empty URL, `fetch` makes at most `max_retries + 1`
attempts, never raises `ValueError`, returns the response of the first
successful attempt (all earlier attempts having raised `FetchError`),
and re-raises the `FetchError` of the last attempt exactly when every
one of the `max_retries + 1` attempts raised; for an empty URL it raises
`ValueError` without attempting any request. -/
theorem httpx_fetch_spec (doFetch : Nat → Except Nat HttpResponseM)
    (maxRetries : Nat) (url : Str) :
    (url = [] → httpxFetch doFetch maxRetries url =
      (Except.error ClientError.valueError, 0)) ∧
      (url ≠ [] →
        (httpxFetch doFetch maxRetries url).2 ≤ maxRetries + 1 ∧
        (httpxFetch doFetch maxRetries url).1 ≠
          Except.error ClientError.valueError ∧
        (∀ r, (httpxFetch doFetch maxRetries url).1 = Except.ok r →
          ∃ j, (httpxFetch doFetch maxRetries url).2 = j + 1 ∧
            doFetch j = Except.ok r ∧
            ∀ i, i < j → ∃ e, doFetch i = Except.error e) ∧
        ∀ e, (httpxFetch doFetch maxRetries url).1 =
            Except.error (ClientError.fetchError e) →
          (httpxFetch doFetch maxRetries url).2 = maxRetries + 1 ∧
          doFetch maxRetries = Except.error e ∧
          ∀ i, i ≤ maxRetries → ∃ e2, doFetch i = Except.error e2) := by
  constructor
  · intro h
    unfold httpxFetch
    rw [if_pos h]
  · intro h
    unfold httpxFetch
    rw [if_neg h]
    rcases hrun : runAttempts doFetch 0 (maxRetries + 1) with ⟨res, k⟩
    rcases res with e | r
    · dsimp only
      obtain ⟨hk, hlast, hall⟩ :=
        runAttempts_err doFetch (maxRetries + 1) 0 e k (by omega) hrun
      refine ⟨by omega, by simp, ?_, ?_⟩
      · intro r hr
        exact absurd hr (by simp)
      · intro e2 he2
        have he3 : e2 = e := by
          injection he2 with he2
          injection he2 with he2
          exact he2.symm
        subst he3
        refine ⟨by omega, by simpa using hlast, ?_⟩
        intro i hi
        obtain ⟨e3, he3⟩ := hall i (by omega)
        exact ⟨e3, by simpa using he3⟩
    · dsimp only
      obtain ⟨j, hj, hok, herr⟩ :=
        runAttempts_ok doFetch (maxRetries + 1) 0 r k hrun
      have hle := runAttempts_le doFetch (maxRetries + 1) 0
      rw [hrun] at hle
      refine ⟨by simpa using hle, by simp, ?_, ?_⟩
      · intro r2 hr2
        have : r2 = r := by
          injection hr2 with hr2
          exact hr2.symm
        subst this
        refine ⟨j, hj, by simpa using hok, ?_⟩
        intro i hi
        obtain ⟨e3, he3⟩ := herr i hi
        exact ⟨e3, by simpa using he3⟩
      · intro e2 he2
        exact absurd he2 (by simp)

def doFetchW : Nat → Except Nat HttpResponseM := fun i =>
  if i = 0 then Except.error 7 else Except.ok ⟨[], 200, [], []⟩

/-- C10 witness at a concrete oracle whose first attempt fails and whose
second succeeds, with one retry allowed. -/
theorem httpx_fetch_spec_witness :
    ("http://x".data = ([] : Str) → httpxFetch doFetchW 1 "http://x".data =
      (Except.error ClientError.valueError, 0)) ∧
      ("http://x".data ≠ ([] : Str) →
        (httpxFetch doFetchW 1 "http://x".data).2 ≤ 1 + 1 ∧
        (httpxFetch doFetchW 1 "http://x".data).1 ≠
          Except.error ClientError.valueError ∧
        (∀ r, (httpxFetch doFetchW 1 "http://x".data).1 = Except.ok r →
          ∃ j, (httpxFetch doFetchW 1 "http://x".data).2 = j + 1 ∧
            doFetchW j = Except.ok r ∧
            ∀ i, i < j → ∃ e, doFetchW i = Except.error e) ∧
        ∀ e, (httpxFetch doFetchW 1 "http://x".data).1 =
            Except.error (ClientError.fetchError e) →
          (httpxFetch doFetchW 1 "http://x".data).2 = 1 + 1 ∧
          doFetchW 1 = Except.error e ∧
          ∀ i, i ≤ 1 → ∃ e2, doFetchW i = Except.error e2) :=
  httpx_fetch_spec doFetchW 1 "http://x".data

end WebCrawler
